import Mathlib

/-!
Verification of the join-operator family of the `joinable` library.

The source (src/rhs.rs, src/joined.rs, src/joined_grouped.rs) is shallowly
embedded below: slices become Lean lists, the three-way predicate becomes a
function into `Ordering`, and each Rust loop becomes a structurally recursive
function whose extra `gas` argument is instantiated with the exact iteration
bound of the loop (so the gas-exhausted branch coincides with the loop's own
exit condition and the definitions reduce in the kernel).
-/

namespace Joinable

/-- Rust `Ordering::is_eq`: true exactly on `Ordering.eq`. -/
def orderingIsEq : Ordering → Bool
  | .eq => true
  | _ => false

/-- The RHS wrapper of src/rhs.rs: a tagged slice, `Unsorted` or `Sorted`. -/
inductive RHS (R : Type) where
  | Unsorted (rs : List R)
  | Sorted (rs : List R)
deriving DecidableEq, Repr

/-- The underlying slice of an RHS wrapper. -/
def RHS.toList {R : Type} : RHS R → List R
  | .Unsorted rs => rs
  | .Sorted rs => rs

variable {L R : Type} [Inhabited R]

/-- Slice indexing `rs[i]`. Indices used on reachable paths of the embedded
code are always in bounds, so the default value is never observed there. -/
def elt (rs : List R) (i : Nat) : R := rs.getD i default

/-- Rust `slice::binary_search_by` on the window `[left, right)`: the
comparator `f` receives the index probed, `mid = left + (right - left) / 2`.
The `gas` argument is instantiated with `right - left`, which is exact: every
iteration strictly shrinks the window, and when gas reaches 0 the window is
empty, so returning `Err(left)` is precisely what the Rust loop does. -/
def bsGo (f : Nat → Ordering) : Nat → Nat → Nat → Except Nat Nat
  | 0, left, _ => .error left
  | g + 1, left, right =>
    if left < right then
      let mid := left + (right - left) / 2
      match f mid with
      | .lt => bsGo f g (mid + 1) right
      | .eq => .ok mid
      | .gt => bsGo f g left mid
    else .error left

/-- `binary_search_by` over a whole slice of length `n`. -/
def binarySearchBy (f : Nat → Ordering) (n : Nat) : Except Nat Nat :=
  bsGo f n 0 n

/-- Rust `Result::is_ok`. -/
def isOkResult : Except Nat Nat → Bool
  | .ok _ => true
  | .error _ => false

/-- `RHS::has_value` (src/rhs.rs line 37): Unsorted does a linear `any`;
Sorted runs `binary_search_by` with the predicate NOT reversed. -/
def has_value (rhs : RHS R) (l : L) (p : L → R → Ordering) : Bool :=
  match rhs with
  | .Unsorted rs => rs.any fun r => orderingIsEq (p l r)
  | .Sorted rs => isOkResult (binarySearchBy (fun i => p l (elt rs i)) rs.length)

/-- The leftward expansion loop of `RHS::get_range`: decrement `start` while
the predecessor still compares Equal. -/
def expandLeft (test : Nat → Bool) : Nat → Nat
  | 0 => 0
  | s + 1 => if test s then expandLeft test s else s + 1

/-- The rightward expansion loop of `RHS::get_range`: increment `e` while in
bounds and still Equal. `gas` is instantiated with `n - e` (exact). -/
def expandRightGo (test : Nat → Bool) (n : Nat) : Nat → Nat → Nat
  | 0, e => e
  | g + 1, e => if e < n && test e then expandRightGo test n g (e + 1) else e

/-- Entry point of the rightward expansion loop. -/
def expandRight (test : Nat → Bool) (n e : Nat) : Nat :=
  expandRightGo test n (n - e) e

/-- `RHS::get_range` (src/rhs.rs line 47): Unsorted returns the whole window;
Sorted bisects with the comparator REVERSED, then expands the found position
leftward and rightward over the Equal run, and returns the sentinel `(1, 0)`
when the bisection fails. -/
def get_range (rhs : RHS R) (l : L) (p : L → R → Ordering) : Nat × Nat :=
  match rhs with
  | .Unsorted rs => (0, rs.length)
  | .Sorted rs =>
    match binarySearchBy (fun i => (p l (elt rs i)).swap) rs.length with
    | .ok pos =>
      (expandLeft (fun i => orderingIsEq (p l (elt rs i))) pos,
       expandRight (fun i => orderingIsEq (p l (elt rs i))) rs.length pos)
    | .error _ => (1, 0)

/-- The forward collection loop of the Sorted arm of `JoinedGrouped::next`:
push `rs[i]` while in bounds and Equal. `gas` instantiated with `n - i`. -/
def collectGo (rs : List R) (test : Nat → Bool) : Nat → Nat → List R
  | 0, _ => []
  | g + 1, i =>
    if i < rs.length && test i then elt rs i :: collectGo rs test g (i + 1) else []

/-- The per-LHS match gather of `JoinedGrouped::next` (src/joined_grouped.rs
line 137): Unsorted filters the slice; Sorted bisects (comparator NOT
reversed), walks left to the start of the Equal run, then collects forward. -/
def gatherGrouped (rhs : RHS R) (l : L) (p : L → R → Ordering) : List R :=
  match rhs with
  | .Unsorted rs => rs.filter fun r => orderingIsEq (p l r)
  | .Sorted rs =>
    match binarySearchBy (fun i => p l (elt rs i)) rs.length with
    | .ok pos =>
      let start := expandLeft (fun i => orderingIsEq (p l (elt rs i))) pos
      collectGo rs (fun i => orderingIsEq (p l (elt rs i))) (rs.length - start) start
    | .error _ => []

/-- `JoinType` of src/joined_grouped.rs. -/
inductive JoinType where
  | Inner
  | Outer
  | Semi
  | Anti
deriving DecidableEq, Repr

/-- One call of `JoinedGrouped::next` (src/joined_grouped.rs line 133): pull
LHS records until one is emitted; return the yield plus the remaining LHS.
The Semi and Anti arms panic in the source (`unreachable!`) and are never
constructed by the factories; they are modelled as immediate termination. -/
def nextGrouped (rhs : RHS R) (p : L → R → Ordering) (jt : JoinType) :
    List L → Option ((L × List R) × List L)
  | [] => none
  | l :: rest =>
    let rs := gatherGrouped rhs l p
    match jt with
    | .Inner => if rs.isEmpty then nextGrouped rhs p jt rest else some ((l, rs), rest)
    | .Outer => some ((l, rs), rest)
    | .Semi => none
    | .Anti => none

/-- The full yield sequence of a `JoinedGrouped` iterator (certified against
`nextGrouped` by `runGrouped_eq_nextGrouped` below). -/
def runGrouped (rhs : RHS R) (p : L → R → Ordering) (jt : JoinType) :
    List L → List (L × List R)
  | [] => []
  | l :: rest =>
    let rs := gatherGrouped rhs l p
    match jt with
    | .Inner =>
      if rs.isEmpty then runGrouped rhs p jt rest else (l, rs) :: runGrouped rhs p jt rest
    | .Outer => (l, rs) :: runGrouped rhs p jt rest
    | .Semi => []
    | .Anti => []

/-- One call of `JoinedLeft::next` (src/joined_grouped.rs line 196): pull LHS
records until `has_value` agrees with the join kind. Inner and Outer arms are
unreachable in the source. -/
def nextLeft (rhs : RHS R) (p : L → R → Ordering) (jt : JoinType) :
    List L → Option (L × List L)
  | [] => none
  | l :: rest =>
    let has_right := has_value rhs l p
    match jt with
    | .Semi => if has_right then some (l, rest) else nextLeft rhs p jt rest
    | .Anti => if has_right then nextLeft rhs p jt rest else some (l, rest)
    | .Inner => none
    | .Outer => none

/-- The full yield sequence of a `JoinedLeft` iterator (certified against
`nextLeft` by `runLeft_eq_nextLeft` below). -/
def runLeft (rhs : RHS R) (p : L → R → Ordering) (jt : JoinType) :
    List L → List L
  | [] => []
  | l :: rest =>
    let has_right := has_value rhs l p
    match jt with
    | .Semi => if has_right then l :: runLeft rhs p jt rest else runLeft rhs p jt rest
    | .Anti => if has_right then runLeft rhs p jt rest else l :: runLeft rhs p jt rest
    | .Inner => []
    | .Outer => []

/-- Per-match iterator state (`JoinedEachInner` / `JoinedEachOuter`,
src/joined.rs): remaining LHS, the optional current LHS record, and the
half-open candidate window into RHS. -/
structure EachState (L R : Type) where
  lhs : List L
  current_left : Option L
  rhs_range : Nat × Nat
deriving DecidableEq, Repr

/-- The scan loop of the Unsorted arm of the per-match `next`: first index in
`[lo, hi)` whose record compares Equal. `gas` instantiated with `hi - lo`. -/
def scanGo (test : Nat → Bool) (hi : Nat) : Nat → Nat → Option Nat
  | 0, _ => none
  | g + 1, lo =>
    if lo < hi then (if test lo then some lo else scanGo test hi g (lo + 1)) else none

/-- The seek step shared by the two `match self.rhs` arms of the per-match
`next`: Unsorted scans `[lo, hi)` for the first Equal record and advances `lo`
past it; Sorted takes the record at `lo` whenever `lo < hi`. Returns the
yielded record together with the new `lo`. -/
def seek (rhs : RHS R) (p : L → R → Ordering) (l : L) (range : Nat × Nat) :
    Option (R × Nat) :=
  match rhs with
  | .Unsorted rs =>
    match scanGo (fun i => orderingIsEq (p l (elt rs i))) range.2 (range.2 - range.1) range.1 with
    | some i => some (elt rs i, i + 1)
    | none => none
  | .Sorted _ =>
    if range.1 < range.2 then some (elt rhs.toList range.1, range.1 + 1) else none

/-- The pull path of `JoinedEachInner::next`: with no current LHS record,
advance the LHS iterator; on exhaustion install the sentinel state and stop;
otherwise compute `get_range`, install the record, and seek. A failed seek
clears `current_left` and loops, which pulls again. -/
def nextEachInnerPull (rhs : RHS R) (p : L → R → Ordering) :
    List L → Option (L × R) × EachState L R
  | [] => (none, ⟨[], none, (1, 0)⟩)
  | l :: rest =>
    let range := get_range rhs l p
    match seek rhs p l range with
    | some (r, lo) => (some (l, r), ⟨rest, some l, (lo, range.2)⟩)
    | none => nextEachInnerPull rhs p rest

/-- One call of `JoinedEachInner::next` (src/joined.rs line 94): the optional
yield together with the successor state. -/
def nextEachInner (rhs : RHS R) (p : L → R → Ordering) (s : EachState L R) :
    Option (L × R) × EachState L R :=
  match s.current_left with
  | some l =>
    match seek rhs p l s.rhs_range with
    | some (r, lo) => (some (l, r), ⟨s.lhs, some l, (lo, s.rhs_range.2)⟩)
    | none => nextEachInnerPull rhs p s.lhs
  | none => nextEachInnerPull rhs p s.lhs

/-- The pull path of `JoinedEachOuter::next`. Note that on a fresh pull whose
seek fails, the source yields `(l, None)` WITHOUT clearing `current_left` and
without touching `rhs_range`. -/
def nextEachOuterPull (rhs : RHS R) (p : L → R → Ordering) :
    List L → Option (L × Option R) × EachState L R
  | [] => (none, ⟨[], none, (1, 0)⟩)
  | l :: rest =>
    let range := get_range rhs l p
    match seek rhs p l range with
    | some (r, lo) => (some (l, some r), ⟨rest, some l, (lo, range.2)⟩)
    | none => (some (l, none), ⟨rest, some l, range⟩)

/-- One call of `JoinedEachOuter::next` (src/joined.rs line 153). -/
def nextEachOuter (rhs : RHS R) (p : L → R → Ordering) (s : EachState L R) :
    Option (L × Option R) × EachState L R :=
  match s.current_left with
  | some l =>
    match seek rhs p l s.rhs_range with
    | some (r, lo) => (some (l, some r), ⟨s.lhs, some l, (lo, s.rhs_range.2)⟩)
    | none => nextEachOuterPull rhs p s.lhs
  | none => nextEachOuterPull rhs p s.lhs

/-- The matches drained for the current LHS record `l` while the window is
`[lo, hi)`: repeated seeks until failure. `gas` instantiated with `hi - lo`,
which is exact since every successful seek strictly advances `lo`. -/
def drainGo (rhs : RHS R) (p : L → R → Ordering) (l : L) (hi : Nat) :
    Nat → Nat → List (L × R)
  | 0, _ => []
  | g + 1, lo =>
    match seek rhs p l (lo, hi) with
    | some (r, lo') => (l, r) :: drainGo rhs p l hi g lo'
    | none => []

/-- Drain entry point for a window. -/
def drainEach (rhs : RHS R) (p : L → R → Ordering) (l : L) (range : Nat × Nat) :
    List (L × R) :=
  drainGo rhs p l range.2 (range.2 - range.1) range.1

/-- The full yield sequence of `JoinedEachInner` from its initial state
(certified against `nextEachInner` by `runFromInner_unfold` below): per LHS
record, the drain of its `get_range` window. -/
def runEachInner (rhs : RHS R) (p : L → R → Ordering) : List L → List (L × R)
  | [] => []
  | l :: rest => drainEach rhs p l (get_range rhs l p) ++ runEachInner rhs p rest

/-- The full yield sequence of `JoinedEachOuter` (certified against
`nextEachOuter` by `runFromOuter_unfold` below): like the inner run but an LHS
record with an empty drain yields a single `(l, none)`. -/
def runEachOuter (rhs : RHS R) (p : L → R → Ordering) : List L → List (L × Option R)
  | [] => []
  | l :: rest =>
    let ms := drainEach rhs p l (get_range rhs l p)
    (if ms.isEmpty then [(l, none)] else ms.map fun x => (x.1, some x.2)) ++
      runEachOuter rhs p rest

/-- Factory `Joinable::inner_join` (src/joined.rs line 32): the sequence of
yields of the iterator it constructs. -/
def inner_join (lhs : List L) (rhs : RHS R) (p : L → R → Ordering) : List (L × R) :=
  runEachInner rhs p lhs

/-- Factory `Joinable::outer_join` (src/joined.rs line 46). -/
def outer_join (lhs : List L) (rhs : RHS R) (p : L → R → Ordering) :
    List (L × Option R) :=
  runEachOuter rhs p lhs

/-- Factory `JoinableGrouped::inner_join_grouped` (src/joined_grouped.rs). -/
def inner_join_grouped (lhs : List L) (rhs : RHS R) (p : L → R → Ordering) :
    List (L × List R) :=
  runGrouped rhs p .Inner lhs

/-- Factory `JoinableGrouped::outer_join_grouped` (src/joined_grouped.rs). -/
def outer_join_grouped (lhs : List L) (rhs : RHS R) (p : L → R → Ordering) :
    List (L × List R) :=
  runGrouped rhs p .Outer lhs

/-- Factory `JoinableGrouped::semi_join` (src/joined_grouped.rs). -/
def semi_join (lhs : List L) (rhs : RHS R) (p : L → R → Ordering) : List L :=
  runLeft rhs p .Semi lhs

/-- Factory `JoinableGrouped::anti_join` (src/joined_grouped.rs). -/
def anti_join (lhs : List L) (rhs : RHS R) (p : L → R → Ordering) : List L :=
  runLeft rhs p .Anti lhs

/-- Indices of the RHS records yielded for one LHS record by the per-match
iterators: Unsorted yields the Equal positions of the whole slice in order,
Sorted yields every index of the `get_range` window. -/
def emitIdxs (rhs : RHS R) (p : L → R → Ordering) (l : L) : List Nat :=
  match rhs with
  | .Unsorted rs => (List.range' 0 rs.length).filter fun i => orderingIsEq (p l (elt rs i))
  | .Sorted rs =>
    let r := get_range (RHS.Sorted rs) l p
    List.range' r.1 (r.2 - r.1)

/-- The ordering convention of spec section 3 for one LHS record `l`: the
slice decomposes into a Greater run `[0, s)`, an Equal run `[s, e)` and a Less
run `[e, len)`. This is the convention under which `get_range` (whose
bisection reverses the comparator) searches correctly. -/
def SortedForGt (p : L → R → Ordering) (l : L) (rs : List R) (s e : Nat) : Prop :=
  s ≤ e ∧ e ≤ rs.length ∧
    (∀ i, i < s → p l (elt rs i) = .gt) ∧
    (∀ i, s ≤ i → i < e → p l (elt rs i) = .eq) ∧
    (∀ i, e ≤ i → i < rs.length → p l (elt rs i) = .lt)

/-- The reversed convention: a Less run `[0, s)`, an Equal run `[s, e)` and a
Greater run `[e, len)`. This is the convention under which the non-reversed
bisections of `has_value` and of the grouped gather search correctly. -/
def SortedForLt (p : L → R → Ordering) (l : L) (rs : List R) (s e : Nat) : Prop :=
  s ≤ e ∧ e ≤ rs.length ∧
    (∀ i, i < s → p l (elt rs i) = .lt) ∧
    (∀ i, s ≤ i → i < e → p l (elt rs i) = .eq) ∧
    (∀ i, e ≤ i → i < rs.length → p l (elt rs i) = .gt)

/-- Existential form of `SortedForGt`. -/
def ConsistentGt (p : L → R → Ordering) (l : L) (rs : List R) : Prop :=
  ∃ s e, SortedForGt p l rs s e

/-- Existential form of `SortedForLt`. -/
def ConsistentLt (p : L → R → Ordering) (l : L) (rs : List R) : Prop :=
  ∃ s e, SortedForLt p l rs s e

/-- The remaining yield sequence of `JoinedEachInner` from an arbitrary state:
drain the current record (if any), then run the remaining LHS. -/
def runFromInner (rhs : RHS R) (p : L → R → Ordering) (s : EachState L R) :
    List (L × R) :=
  match s.current_left with
  | some l => drainEach rhs p l s.rhs_range ++ runEachInner rhs p s.lhs
  | none => runEachInner rhs p s.lhs

/-- The remaining yield sequence of `JoinedEachOuter` from an arbitrary state.
When a current record is installed, the pending `(l, none)` fallback is no
longer possible (`is_first` is false on every later call), so only the plain
drain remains. -/
def runFromOuter (rhs : RHS R) (p : L → R → Ordering) (s : EachState L R) :
    List (L × Option R) :=
  match s.current_left with
  | some l =>
    (drainEach rhs p l s.rhs_range).map (fun x => (x.1, some x.2)) ++
      runEachOuter rhs p s.lhs
  | none => runEachOuter rhs p s.lhs

/-! ### Correctness of the bisection loop -/

/-- Soundness of `bsGo`: an `ok` result is an in-window index whose probe
compares `eq`. -/
theorem bsGo_ok {f : Nat → Ordering} :
    ∀ {g left right pos : Nat}, bsGo f g left right = .ok pos →
      left ≤ pos ∧ pos < right ∧ f pos = .eq := by
  intro g
  induction g with
  | zero => intro left right pos h; simp [bsGo] at h
  | succ g ih =>
    intro left right pos h
    simp only [bsGo] at h
    split at h
    · split at h
      · obtain ⟨h1, h2, h3⟩ := ih h
        exact ⟨by omega, h2, h3⟩
      · cases h
        refine ⟨by omega, by omega, by assumption⟩
      · obtain ⟨h1, h2, h3⟩ := ih h
        exact ⟨h1, by omega, h3⟩
    · cases h

/-- Completeness of `bsGo` on a three-way-sorted probe function: when the
equal zone `[s, e)` is nonempty and contained in the searched window, the
bisection succeeds. -/
theorem bsGo_finds {f : Nat → Ordering} {n s e : Nat}
    (Hlt : ∀ i, i < s → f i = .lt)
    (Heq : ∀ i, s ≤ i → i < e → f i = .eq)
    (Hgt : ∀ i, e ≤ i → i < n → f i = .gt)
    (hse : s < e) :
    ∀ g left right, right - left ≤ g → left ≤ s → e ≤ right → right ≤ n →
      ∃ pos, bsGo f g left right = .ok pos := by
  intro g
  induction g with
  | zero => intro left right h1 h2 h3 h4; omega
  | succ g ih =>
    intro left right h1 h2 h3 h4
    have hlr : left < right := by omega
    simp only [bsGo, if_pos hlr]
    cases ho : f (left + (right - left) / 2) with
    | lt =>
      have hms : left + (right - left) / 2 < s := by
        by_contra hc
        push_neg at hc
        rcases Nat.lt_or_ge (left + (right - left) / 2) e with hme | hme
        · have := Heq _ hc hme
          rw [ho] at this
          cases this
        · have := Hgt _ hme (by omega)
          rw [ho] at this
          cases this
      have ⟨pos, hpos⟩ := ih (left + (right - left) / 2 + 1) right (by omega) (by omega) h3 h4
      exact ⟨pos, hpos⟩
    | eq => exact ⟨left + (right - left) / 2, rfl⟩
    | gt =>
      have hme : e ≤ left + (right - left) / 2 := by
        by_contra hc
        push_neg at hc
        rcases Nat.lt_or_ge (left + (right - left) / 2) s with hms | hms
        · have := Hlt _ hms
          rw [ho] at this
          cases this
        · have := Heq _ hms hc
          rw [ho] at this
          cases this
      have ⟨pos, hpos⟩ := ih left (left + (right - left) / 2) (by omega) h2 hme (by omega)
      exact ⟨pos, hpos⟩

/-- Soundness of `binarySearchBy` over a slice of length `n`. -/
theorem binarySearchBy_ok {f : Nat → Ordering} {n pos : Nat}
    (h : binarySearchBy f n = .ok pos) : pos < n ∧ f pos = .eq := by
  obtain ⟨-, h2, h3⟩ := bsGo_ok h
  exact ⟨h2, h3⟩

/-- On a three-way-sorted probe function, `binarySearchBy` succeeds exactly
when the equal zone is nonempty, and lands inside it. -/
theorem binarySearchBy_zone {f : Nat → Ordering} {n s e : Nat}
    (Hlt : ∀ i, i < s → f i = .lt)
    (Heq : ∀ i, s ≤ i → i < e → f i = .eq)
    (Hgt : ∀ i, e ≤ i → i < n → f i = .gt)
    (hse : s < e) (hen : e ≤ n) :
    ∃ pos, binarySearchBy f n = .ok pos ∧ s ≤ pos ∧ pos < e := by
  obtain ⟨pos, hpos⟩ :=
    bsGo_finds Hlt Heq Hgt hse n 0 n (by omega) (by omega) hen (by omega)
  obtain ⟨-, hlt, heq⟩ := bsGo_ok hpos
  refine ⟨pos, hpos, ?_, ?_⟩
  · by_contra hc
    push_neg at hc
    have := Hlt _ hc
    rw [heq] at this
    cases this
  · by_contra hc
    push_neg at hc
    have := Hgt _ hc hlt
    rw [heq] at this
    cases this

/-- On a three-way-sorted probe function, success of the whole-slice bisection
is equivalent to the equal zone being nonempty. -/
theorem binarySearchBy_isOk_zone {f : Nat → Ordering} {n s e : Nat}
    (Hlt : ∀ i, i < s → f i = .lt)
    (Heq : ∀ i, s ≤ i → i < e → f i = .eq)
    (Hgt : ∀ i, e ≤ i → i < n → f i = .gt)
    (hen : e ≤ n) :
    isOkResult (binarySearchBy f n) = true ↔ s < e := by
  constructor
  · intro h
    rcases hr : binarySearchBy f n with j | pos
    · rw [hr] at h; cases h
    · obtain ⟨hlt, heq⟩ := binarySearchBy_ok hr
      rcases Nat.lt_or_ge pos s with hc | hc
      · have := Hlt _ hc
        rw [heq] at this
        cases this
      · rcases Nat.lt_or_ge pos e with hc2 | hc2
        · omega
        · have := Hgt _ hc2 hlt
          rw [heq] at this
          cases this
  · intro hse
    obtain ⟨pos, hpos, -, -⟩ := binarySearchBy_zone Hlt Heq Hgt hse hen
    rw [hpos]
    rfl

/-! ### The expansion and collection loops -/

/-- The leftward expansion never moves right. -/
theorem expandLeft_le (test : Nat → Bool) : ∀ pos, expandLeft test pos ≤ pos := by
  intro pos
  induction pos with
  | zero => exact Nat.le_refl 0
  | succ q ih =>
    simp only [expandLeft]
    split
    · omega
    · omega

/-- Every index passed over by the leftward expansion tests true. -/
theorem expandLeft_true (test : Nat → Bool) :
    ∀ pos i, expandLeft test pos ≤ i → i < pos → test i = true := by
  intro pos
  induction pos with
  | zero => intro i h1 h2; omega
  | succ q ih =>
    intro i h1 h2
    simp only [expandLeft] at h1
    by_cases hq : test q
    · rw [if_pos hq] at h1
      rcases Nat.lt_or_ge i q with hiq | hiq
      · exact ih i h1 hiq
      · have : i = q := by omega
        rw [this]
        exact hq
    · rw [if_neg hq] at h1
      omega

/-- On a zoned test (false below `s`, true on `[s, e)`), the leftward
expansion from any position of the equal zone lands exactly on `s`. -/
theorem expandLeft_zone {test : Nat → Bool} {s e : Nat}
    (Hfalse : ∀ i, i < s → test i = false)
    (Htrue : ∀ i, s ≤ i → i < e → test i = true) :
    ∀ pos, s ≤ pos → pos < e → expandLeft test pos = s := by
  intro pos
  induction pos with
  | zero =>
    intro h1 h2
    have hs : s = 0 := by omega
    simp [expandLeft, hs]
  | succ q ih =>
    intro h1 h2
    simp only [expandLeft]
    rcases Nat.lt_or_ge q s with hq | hq
    · have hqs : s = q + 1 := by omega
      rw [Hfalse q hq]
      simp [hqs]
    · rw [Htrue q hq (by omega)]
      simp only [if_pos]
      exact ih hq (by omega)

/-- The rightward expansion never moves left. -/
theorem expandRightGo_ge (test : Nat → Bool) (n : Nat) :
    ∀ g i, i ≤ expandRightGo test n g i := by
  intro g
  induction g with
  | zero => intro i; exact Nat.le_refl i
  | succ g ih =>
    intro i
    simp only [expandRightGo]
    split
    · exact Nat.le_trans (by omega) (ih (i + 1))
    · exact Nat.le_refl i

/-- The rightward expansion stays within the slice. -/
theorem expandRightGo_le (test : Nat → Bool) (n : Nat) :
    ∀ g i, i ≤ n → expandRightGo test n g i ≤ n := by
  intro g
  induction g with
  | zero => intro i h; exact h
  | succ g ih =>
    intro i h
    simp only [expandRightGo]
    split
    · next hc =>
      have : i < n := by
        rcases Bool.and_eq_true .. |>.mp hc with ⟨h1, -⟩
        exact of_decide_eq_true h1
      exact ih (i + 1) this
    · exact h

/-- Every index passed over by the rightward expansion tests true. -/
theorem expandRightGo_true (test : Nat → Bool) (n : Nat) :
    ∀ g i j, i ≤ j → j < expandRightGo test n g i → test j = true := by
  intro g
  induction g with
  | zero => intro i j h1 h2; simp only [expandRightGo] at h2; omega
  | succ g ih =>
    intro i j h1 h2
    simp only [expandRightGo] at h2
    split at h2
    · next hc =>
      rcases Bool.and_eq_true .. |>.mp hc with ⟨-, hti⟩
      rcases Nat.lt_or_ge i j with hij | hij
      · exact ih (i + 1) j hij h2
      · have : j = i := by omega
        rw [this]
        exact hti
    · omega

/-- On a zoned test (true on `[s, e)`, false on `[e, n)`), the rightward
expansion from any position of the equal zone lands exactly on `e`. -/
theorem expandRightGo_zone {test : Nat → Bool} {n s e : Nat}
    (Htrue : ∀ i, s ≤ i → i < e → test i = true)
    (Hfalse : ∀ i, e ≤ i → i < n → test i = false)
    (hen : e ≤ n) :
    ∀ g i, n - i ≤ g → s ≤ i → i ≤ e → expandRightGo test n g i = e := by
  intro g
  induction g with
  | zero => intro i h1 h2 h3; simp only [expandRightGo]; omega
  | succ g ih =>
    intro i h1 h2 h3
    simp only [expandRightGo]
    rcases Nat.lt_or_ge i e with hie | hie
    · rw [Htrue i h2 hie]
      have hin : i < n := by omega
      simp only [decide_eq_true hin, Bool.true_and, if_pos]
      exact ih (i + 1) (by omega) (by omega) hie
    · have hieq : i = e := by omega
      subst hieq
      rcases Nat.lt_or_ge i n with hin | hin
      · rw [Hfalse i (Nat.le_refl i) hin]
        simp
      · have : ¬ i < n := by omega
        simp [this]

/-- Elements produced by the collection loop all test true at an in-bounds
index at or after the start. -/
theorem collectGo_mem {rs : List R} {test : Nat → Bool} :
    ∀ {g i x}, x ∈ collectGo rs test g i →
      ∃ j, i ≤ j ∧ j < rs.length ∧ test j = true ∧ x = elt rs j := by
  intro g
  induction g with
  | zero => intro i x h; simp [collectGo] at h
  | succ g ih =>
    intro i x h
    simp only [collectGo] at h
    split at h
    · next hc =>
      rcases Bool.and_eq_true .. |>.mp hc with ⟨hin, hti⟩
      rcases List.mem_cons.mp h with hx | hx
      · exact ⟨i, Nat.le_refl i, of_decide_eq_true hin, hti, hx⟩
      · obtain ⟨j, hj1, hj2, hj3, hj4⟩ := ih hx
        exact ⟨j, by omega, hj2, hj3, hj4⟩
    · cases h

/-- On a zoned test, collecting from a position `i` of the equal zone yields
exactly the records of `[i, e)` in index order. -/
theorem collectGo_zone {rs : List R} {test : Nat → Bool} {s e : Nat}
    (Htrue : ∀ i, s ≤ i → i < e → test i = true)
    (Hfalse : ∀ i, e ≤ i → i < rs.length → test i = false)
    (hen : e ≤ rs.length) :
    ∀ g i, rs.length - i ≤ g → s ≤ i → i ≤ e →
      collectGo rs test g i = (List.range' i (e - i)).map (elt rs) := by
  intro g
  induction g with
  | zero =>
    intro i h1 h2 h3
    have hie : i = e := by omega
    subst hie
    simp [collectGo]
  | succ g ih =>
    intro i h1 h2 h3
    simp only [collectGo]
    rcases Nat.lt_or_ge i e with hie | hie
    · rw [Htrue i h2 hie]
      have hin : i < rs.length := by omega
      simp only [decide_eq_true hin, Bool.true_and, if_pos]
      rw [ih (i + 1) (by omega) (by omega) hie]
      have hei : e - i = (e - (i + 1)) + 1 := by omega
      rw [hei, List.range'_succ]
      simp
    · have hieq : i = e := by omega
      subst hieq
      rcases Nat.lt_or_ge i rs.length with hin | hin
      · rw [Hfalse i hie hin]
        simp
      · have : ¬ i < rs.length := by omega
        simp [this]

/-! ### Basic facts about `orderingIsEq`, `elt` and window decompositions -/

/-- `orderingIsEq` is the characteristic function of `Ordering.eq`. -/
theorem orderingIsEq_iff {o : Ordering} : orderingIsEq o = true ↔ o = .eq := by
  cases o <;> simp [orderingIsEq]

/-- Swapping preserves being `eq`. -/
theorem swap_eq_iff {o : Ordering} : o.swap = .eq ↔ o = .eq := by
  cases o <;> simp [Ordering.swap]

/-- In-bounds `elt` accesses are list members. -/
theorem elt_mem {rs : List R} {i : Nat} (h : i < rs.length) : elt rs i ∈ rs := by
  rw [elt, List.getD_eq_getElem rs default h]
  exact List.getElem_mem h

/-- A list is the `elt` image of its index range. -/
theorem list_eq_range_map (rs : List R) :
    rs = (List.range' 0 rs.length).map (elt rs) := by
  induction rs with
  | nil => rfl
  | cons x xs ih =>
    have hr : List.range' 0 (xs.length + 1) = 0 :: List.range' 1 xs.length :=
      List.range'_succ 0 xs.length 1
    simp only [List.length_cons, hr, List.map_cons]
    have h0 : elt (x :: xs) 0 = x := List.getD_cons_zero
    rw [h0]
    have hshift : (List.range' 1 xs.length).map (elt (x :: xs)) =
        (List.range' 0 xs.length).map (elt xs) := by
      rw [List.range'_eq_map_range 1 xs.length, List.range'_eq_map_range 0 xs.length]
      rw [List.map_map, List.map_map]
      refine List.map_congr_left ?_
      intro i hi
      show elt (x :: xs) (1 + i) = elt xs (0 + i)
      rw [Nat.add_comm 1 i, Nat.zero_add]
      exact List.getD_cons_succ
    rw [hshift, ← ih]

/-- Filtering a list whose test is true exactly on the index window `[s, e)`
yields the records of that window in index order. -/
theorem filter_zone (rs : List R) (q : R → Bool) (s e : Nat)
    (hse : s ≤ e) (hen : e ≤ rs.length)
    (hq : ∀ i, i < rs.length → (q (elt rs i) = true ↔ (s ≤ i ∧ i < e))) :
    rs.filter q = (List.range' s (e - s)).map (elt rs) := by
  conv_lhs => rw [list_eq_range_map rs]
  rw [List.filter_map]
  have hsplit1 : List.range' 0 e ++ List.range' e (rs.length - e) =
      List.range' 0 rs.length := by
    have := List.range'_append 0 e (rs.length - e) 1
    simpa [Nat.add_comm, Nat.add_sub_cancel' hen] using this
  have hsplit2 : List.range' 0 s ++ List.range' s (e - s) = List.range' 0 e := by
    have := List.range'_append 0 s (e - s) 1
    simpa [Nat.add_comm, Nat.add_sub_cancel' hse] using this
  rw [← hsplit1, ← hsplit2]
  rw [List.filter_append, List.filter_append]
  have hlow : (List.range' 0 s).filter (q ∘ elt rs) = [] := by
    rw [List.filter_eq_nil_iff]
    intro i hi
    rw [List.mem_range'_1] at hi
    have hilen : i < rs.length := by omega
    intro hc
    have := (hq i hilen).mp hc
    omega
  have hmid : (List.range' s (e - s)).filter (q ∘ elt rs) = List.range' s (e - s) := by
    rw [List.filter_eq_self]
    intro i hi
    rw [List.mem_range'_1] at hi
    have hilen : i < rs.length := by omega
    exact (hq i hilen).mpr (by omega)
  have hhigh : (List.range' e (rs.length - e)).filter (q ∘ elt rs) = [] := by
    rw [List.filter_eq_nil_iff]
    intro i hi
    rw [List.mem_range'_1] at hi
    have hilen : i < rs.length := by omega
    intro hc
    have := (hq i hilen).mp hc
    omega
  rw [hlow, hmid, hhigh, List.map_append, List.map_append]
  simp

/-! ### Correctness of `get_range` -/

/-- `get_range` over an Unsorted wrapper is the whole window. -/
theorem get_range_unsorted (rs : List R) (l : L) (p : L → R → Ordering) :
    get_range (RHS.Unsorted rs) l p = (0, rs.length) := rfl

/-- Unconditionally (no sortedness assumed), every index of the window that
`get_range` returns for a Sorted wrapper is in bounds and compares Equal. -/
theorem get_range_sorted_eqrun {rs : List R} {l : L} {p : L → R → Ordering}
    {a b : Nat} (h : get_range (RHS.Sorted rs) l p = (a, b)) :
    ∀ i, a ≤ i → i < b → p l (elt rs i) = .eq ∧ i < rs.length := by
  intro i h1 h2
  rcases hr : binarySearchBy (fun i => (p l (elt rs i)).swap) rs.length with j | pos
  · simp only [get_range, hr] at h
    cases h
    omega
  · simp only [get_range, hr] at h
    obtain ⟨hpos, heq⟩ := binarySearchBy_ok hr
    have heqp : p l (elt rs pos) = .eq := swap_eq_iff.mp heq
    cases h
    have hb : expandRight (fun i => orderingIsEq (p l (elt rs i))) rs.length pos ≤
        rs.length := expandRightGo_le _ _ _ pos (Nat.le_of_lt hpos)
    rcases Nat.lt_or_ge i pos with hip | hip
    · have := expandLeft_true (fun i => orderingIsEq (p l (elt rs i))) pos i h1 hip
      exact ⟨orderingIsEq_iff.mp this, by omega⟩
    · rcases Nat.eq_or_lt_of_le hip with hip2 | hip2
      · exact ⟨hip2 ▸ heqp, by omega⟩
      · have := expandRightGo_true (fun i => orderingIsEq (p l (elt rs i)))
          rs.length (rs.length - pos) pos i hip h2
        exact ⟨orderingIsEq_iff.mp this, by omega⟩

/-- Under the section-3 convention (`SortedForGt`), `get_range` returns the
exact equal run `(s, e)` when it is nonempty and the sentinel `(1, 0)`
otherwise. -/
theorem get_range_sorted_zone {rs : List R} {l : L} {p : L → R → Ordering}
    {s e : Nat} (H : SortedForGt p l rs s e) :
    get_range (RHS.Sorted rs) l p = if s < e then (s, e) else (1, 0) := by
  obtain ⟨hse, hen, Hg, He, Hl⟩ := H
  have Hflt : ∀ i, i < s → (p l (elt rs i)).swap = .lt := by
    intro i hi
    rw [Hg i hi]
    rfl
  have Hfeq : ∀ i, s ≤ i → i < e → (p l (elt rs i)).swap = .eq := by
    intro i hi1 hi2
    rw [He i hi1 hi2]
    rfl
  have Hfgt : ∀ i, e ≤ i → i < rs.length → (p l (elt rs i)).swap = .gt := by
    intro i hi1 hi2
    rw [Hl i hi1 hi2]
    rfl
  by_cases hlt : s < e
  · rw [if_pos hlt]
    obtain ⟨pos, hok, hps, hpe⟩ := binarySearchBy_zone Hflt Hfeq Hfgt hlt hen
    simp only [get_range, hok]
    have htf : ∀ i, i < s → orderingIsEq (p l (elt rs i)) = false := by
      intro i hi
      rw [Hg i hi]
      rfl
    have htt : ∀ i, s ≤ i → i < e → orderingIsEq (p l (elt rs i)) = true := by
      intro i hi1 hi2
      rw [He i hi1 hi2]
      rfl
    have htf2 : ∀ i, e ≤ i → i < rs.length → orderingIsEq (p l (elt rs i)) = false := by
      intro i hi1 hi2
      rw [Hl i hi1 hi2]
      rfl
    have hL : expandLeft (fun i => orderingIsEq (p l (elt rs i))) pos = s :=
      expandLeft_zone htf htt pos hps hpe
    have hR : expandRight (fun i => orderingIsEq (p l (elt rs i))) rs.length pos = e :=
      expandRightGo_zone htt htf2 hen (rs.length - pos) pos (Nat.le_refl _) hps
        (Nat.le_of_lt hpe)
    rw [hL, hR]
  · rw [if_neg hlt]
    rcases hr : binarySearchBy (fun i => (p l (elt rs i)).swap) rs.length with j | pos
    · simp only [get_range, hr]
    · exfalso
      have hiff := binarySearchBy_isOk_zone Hflt Hfeq Hfgt hen
      rw [hr] at hiff
      exact hlt (hiff.mp rfl)

/-! ### Correctness of `has_value` -/

/-- Over an Unsorted wrapper, `has_value` decides existence of a match with no
precondition at all. -/
theorem has_value_unsorted_iff {rs : List R} {l : L} {p : L → R → Ordering} :
    has_value (RHS.Unsorted rs) l p = true ↔ ∃ r ∈ rs, p l r = .eq := by
  simp only [has_value, List.any_eq_true]
  constructor
  · rintro ⟨r, hr, hq⟩
    exact ⟨r, hr, orderingIsEq_iff.mp hq⟩
  · rintro ⟨r, hr, hq⟩
    exact ⟨r, hr, orderingIsEq_iff.mpr hq⟩

/-- Over a Sorted wrapper whose slice follows the REVERSED convention
(`SortedForLt`: Less run, Equal run, Greater run), `has_value` decides
existence of a match. -/
theorem has_value_sorted_zone {rs : List R} {l : L} {p : L → R → Ordering}
    {s e : Nat} (H : SortedForLt p l rs s e) :
    has_value (RHS.Sorted rs) l p = true ↔ ∃ r ∈ rs, p l r = .eq := by
  obtain ⟨hse, hen, Hl, He, Hg⟩ := H
  have hiff := binarySearchBy_isOk_zone (f := fun i => p l (elt rs i)) Hl He Hg hen
  simp only [has_value]
  rw [hiff]
  constructor
  · intro hlt
    refine ⟨elt rs s, elt_mem (by omega), He s (Nat.le_refl s) hlt⟩
  · rintro ⟨r, hr, hq⟩
    obtain ⟨i, hi, hieq⟩ := List.mem_iff_getElem.mp hr
    have helt : elt rs i = r := by
      rw [elt, List.getD_eq_getElem rs default hi, hieq]
    rcases Nat.lt_or_ge i s with his | his
    · have := Hl i his
      rw [helt, hq] at this
      cases this
    · rcases Nat.lt_or_ge i e with hie | hie
      · omega
      · have := Hg i hie hi
        rw [helt, hq] at this
        cases this

/-! ### Correctness of the grouped gather and the grouped/left-only runs -/

/-- Under the section-3 convention, the value-level Equal filter keeps exactly
the records of the zone `[s, e)`. -/
theorem filter_zone_of_gt {rs : List R} {l : L} {p : L → R → Ordering}
    {s e : Nat} (H : SortedForGt p l rs s e) :
    rs.filter (fun r => orderingIsEq (p l r)) = (List.range' s (e - s)).map (elt rs) := by
  obtain ⟨hse, hen, Hg, He, Hl⟩ := H
  refine filter_zone rs _ s e hse hen ?_
  intro i hi
  constructor
  · intro hq
    by_contra hc
    rw [Decidable.not_and_iff_or_not] at hc
    rcases hc with hc | hc
    · have := Hg i (by omega)
      rw [orderingIsEq_iff.mp hq] at this
      cases this
    · have := Hl i (by omega) hi
      rw [orderingIsEq_iff.mp hq] at this
      cases this
  · rintro ⟨h1, h2⟩
    exact orderingIsEq_iff.mpr (He i h1 h2)

/-- Under the reversed convention, the value-level Equal filter keeps exactly
the records of the zone `[s, e)`. -/
theorem filter_zone_of_lt {rs : List R} {l : L} {p : L → R → Ordering}
    {s e : Nat} (H : SortedForLt p l rs s e) :
    rs.filter (fun r => orderingIsEq (p l r)) = (List.range' s (e - s)).map (elt rs) := by
  obtain ⟨hse, hen, Hl, He, Hg⟩ := H
  refine filter_zone rs _ s e hse hen ?_
  intro i hi
  constructor
  · intro hq
    by_contra hc
    rw [Decidable.not_and_iff_or_not] at hc
    rcases hc with hc | hc
    · have := Hl i (by omega)
      rw [orderingIsEq_iff.mp hq] at this
      cases this
    · have := Hg i (by omega) hi
      rw [orderingIsEq_iff.mp hq] at this
      cases this
  · rintro ⟨h1, h2⟩
    exact orderingIsEq_iff.mpr (He i h1 h2)

/-- Under the reversed convention (`SortedForLt`), the Sorted gather of
`JoinedGrouped::next` collects exactly the equal run, in index order. -/
theorem gather_sorted_zone {rs : List R} {l : L} {p : L → R → Ordering}
    {s e : Nat} (H : SortedForLt p l rs s e) :
    gatherGrouped (RHS.Sorted rs) l p = (List.range' s (e - s)).map (elt rs) := by
  obtain ⟨hse, hen, Hl, He, Hg⟩ := H
  have htf : ∀ i, i < s → orderingIsEq (p l (elt rs i)) = false := by
    intro i hi
    rw [Hl i hi]
    rfl
  have htt : ∀ i, s ≤ i → i < e → orderingIsEq (p l (elt rs i)) = true := by
    intro i hi1 hi2
    rw [He i hi1 hi2]
    rfl
  have htf2 : ∀ i, e ≤ i → i < rs.length → orderingIsEq (p l (elt rs i)) = false := by
    intro i hi1 hi2
    rw [Hg i hi1 hi2]
    rfl
  by_cases hlt : s < e
  · obtain ⟨pos, hok, hps, hpe⟩ :=
      binarySearchBy_zone (f := fun i => p l (elt rs i)) Hl He Hg hlt hen
    simp only [gatherGrouped, hok]
    have hL : expandLeft (fun i => orderingIsEq (p l (elt rs i))) pos = s :=
      expandLeft_zone htf htt pos hps hpe
    rw [hL]
    exact collectGo_zone htt htf2 hen (rs.length - s) s (Nat.le_refl _) (Nat.le_refl s)
      (Nat.le_of_lt hlt)
  · rcases hr : binarySearchBy (fun i => p l (elt rs i)) rs.length with j | pos
    · simp only [gatherGrouped, hr]
      have : e - s = 0 := by omega
      simp [this]
    · exfalso
      have hiff := binarySearchBy_isOk_zone (f := fun i => p l (elt rs i)) Hl He Hg hen
      rw [hr] at hiff
      exact hlt (hiff.mp rfl)

/-- Unconditionally, every record gathered by `JoinedGrouped::next` is a
member of the slice that compares Equal. -/
theorem gather_mem {rhs : RHS R} {l : L} {p : L → R → Ordering} {r : R}
    (h : r ∈ gatherGrouped rhs l p) : r ∈ rhs.toList ∧ p l r = .eq := by
  cases rhs with
  | Unsorted rs =>
    simp only [gatherGrouped] at h
    obtain ⟨hm, hq⟩ := List.mem_filter.mp h
    exact ⟨hm, orderingIsEq_iff.mp hq⟩
  | Sorted rs =>
    rcases hr : binarySearchBy (fun i => p l (elt rs i)) rs.length with j | pos
    · simp only [gatherGrouped, hr] at h
      cases h
    · simp only [gatherGrouped, hr] at h
      obtain ⟨j, -, hj2, hj3, hj4⟩ := collectGo_mem h
      exact ⟨hj4 ▸ elt_mem hj2, hj4 ▸ orderingIsEq_iff.mp hj3⟩

/-- The Outer grouped run maps each LHS record to its gather. -/
theorem runGrouped_outer_eq (rhs : RHS R) (p : L → R → Ordering) :
    ∀ lhs : List L,
      runGrouped rhs p .Outer lhs = lhs.map fun l => (l, gatherGrouped rhs l p) := by
  intro lhs
  induction lhs with
  | nil => rfl
  | cons l rest ih => simp [runGrouped, ih]

/-- The Inner grouped run is the Outer one with empty groups dropped. -/
theorem runGrouped_inner_eq (rhs : RHS R) (p : L → R → Ordering) :
    ∀ lhs : List L,
      runGrouped rhs p .Inner lhs =
        (lhs.map fun l => (l, gatherGrouped rhs l p)).filter fun x => !x.2.isEmpty := by
  intro lhs
  induction lhs with
  | nil => rfl
  | cons l rest ih =>
    by_cases h : (gatherGrouped rhs l p).isEmpty <;>
      simp [runGrouped, h, ih]

/-- The Semi run filters LHS by `has_value`. -/
theorem runLeft_semi_eq (rhs : RHS R) (p : L → R → Ordering) :
    ∀ lhs : List L,
      runLeft rhs p .Semi lhs = lhs.filter fun l => has_value rhs l p := by
  intro lhs
  induction lhs with
  | nil => rfl
  | cons l rest ih =>
    by_cases h : has_value rhs l p <;> simp [runLeft, h, ih]

/-- The Anti run filters LHS by the negation of `has_value`. -/
theorem runLeft_anti_eq (rhs : RHS R) (p : L → R → Ordering) :
    ∀ lhs : List L,
      runLeft rhs p .Anti lhs = lhs.filter fun l => !(has_value rhs l p) := by
  intro lhs
  induction lhs with
  | nil => rfl
  | cons l rest ih =>
    by_cases h : has_value rhs l p <;> simp [runLeft, h, ih]

/-- `runGrouped` is the iteration of `nextGrouped`: it satisfies the
defining unfolding equation of the Rust iterator protocol. -/
theorem runGrouped_eq_nextGrouped (rhs : RHS R) (p : L → R → Ordering)
    (jt : JoinType) :
    ∀ lhs : List L,
      runGrouped rhs p jt lhs =
        (match nextGrouped rhs p jt lhs with
         | none => []
         | some (x, rest) => x :: runGrouped rhs p jt rest) := by
  intro lhs
  induction lhs with
  | nil => cases jt <;> rfl
  | cons l rest ih =>
    cases jt with
    | Inner =>
      by_cases h : (gatherGrouped rhs l p).isEmpty
      · simp only [runGrouped, nextGrouped, h, if_pos]
        exact ih
      · simp [runGrouped, nextGrouped, h]
    | Outer => simp [runGrouped, nextGrouped]
    | Semi => rfl
    | Anti => rfl

/-- `runLeft` is the iteration of `nextLeft`. -/
theorem runLeft_eq_nextLeft (rhs : RHS R) (p : L → R → Ordering) (jt : JoinType) :
    ∀ lhs : List L,
      runLeft rhs p jt lhs =
        (match nextLeft rhs p jt lhs with
         | none => []
         | some (x, rest) => x :: runLeft rhs p jt rest) := by
  intro lhs
  induction lhs with
  | nil => cases jt <;> rfl
  | cons l rest ih =>
    cases jt with
    | Semi =>
      by_cases h : has_value rhs l p
      · simp [runLeft, nextLeft, h]
      · simp only [runLeft, nextLeft, h]
        simpa using ih
    | Anti =>
      by_cases h : has_value rhs l p
      · simp only [runLeft, nextLeft, h]
        simpa using ih
      · simp [runLeft, nextLeft, h]
    | Inner => rfl
    | Outer => rfl

/-! ### The per-match scan, seek and drain -/

/-- A successful scan returns an in-window index that tests true. -/
theorem scanGo_some {test : Nat → Bool} {hi : Nat} :
    ∀ {g lo i : Nat}, scanGo test hi g lo = some i →
      lo ≤ i ∧ i < hi ∧ test i = true := by
  intro g
  induction g with
  | zero => intro lo i h; simp [scanGo] at h
  | succ g ih =>
    intro lo i h
    simp only [scanGo] at h
    split at h
    · split at h
      · cases h
        exact ⟨Nat.le_refl _, by assumption, by assumption⟩
      · obtain ⟨h1, h2, h3⟩ := ih h
        exact ⟨by omega, h2, h3⟩
    · cases h

/-- Scanning an empty window fails. -/
theorem scanGo_none_of_ge {test : Nat → Bool} {hi : Nat} (g lo : Nat)
    (h : hi ≤ lo) : scanGo test hi g lo = none := by
  cases g with
  | zero => rfl
  | succ g =>
    simp only [scanGo]
    rw [if_neg (by omega)]

/-- The scan result does not depend on the gas, once sufficient. -/
theorem scanGo_gas {test : Nat → Bool} {hi : Nat} :
    ∀ g g' lo, hi - lo ≤ g → hi - lo ≤ g' →
      scanGo test hi g lo = scanGo test hi g' lo := by
  intro g
  induction g with
  | zero =>
    intro g' lo h1 h2
    rw [scanGo_none_of_ge 0 lo (by omega), scanGo_none_of_ge g' lo (by omega)]
  | succ g ih =>
    intro g' lo h1 h2
    rcases Nat.lt_or_ge lo hi with hlo | hlo
    · cases g' with
      | zero => omega
      | succ g' =>
        simp only [scanGo, if_pos hlo]
        by_cases ht : test lo
        · rw [if_pos ht, if_pos ht]
        · rw [if_neg ht, if_neg ht]
          exact ih g' (lo + 1) (by omega) (by omega)
    · rw [scanGo_none_of_ge _ lo hlo, scanGo_none_of_ge g' lo hlo]

/-- Seeking an empty window fails. -/
theorem seek_none_of_ge {rhs : RHS R} {p : L → R → Ordering} {l : L}
    {lo hi : Nat} (h : hi ≤ lo) : seek rhs p l (lo, hi) = none := by
  cases rhs with
  | Unsorted rs =>
    simp only [seek]
    rw [scanGo_none_of_ge _ lo h]
  | Sorted rs =>
    simp only [seek]
    rw [if_neg (by omega)]

/-- A successful seek strictly advances `lo` and stays within the window. -/
theorem seek_some_bounds {rhs : RHS R} {p : L → R → Ordering} {l : L}
    {lo hi lo' : Nat} {r : R} (h : seek rhs p l (lo, hi) = some (r, lo')) :
    lo < lo' ∧ lo' ≤ hi := by
  cases rhs with
  | Unsorted rs =>
    simp only [seek] at h
    rcases hs : scanGo (fun i => orderingIsEq (p l (elt rs i))) hi (hi - lo) lo with - | i
    · rw [hs] at h; cases h
    · rw [hs] at h
      cases h
      obtain ⟨h1, h2, -⟩ := scanGo_some hs
      omega
  | Sorted rs =>
    simp only [seek] at h
    split at h
    · cases h; omega
    · cases h

/-- Unsorted seek: a window whose first index tests Equal yields it. -/
theorem seek_unsorted_hit {rs : List R} {p : L → R → Ordering} {l : L}
    {lo hi : Nat} (hlo : lo < hi) (ht : orderingIsEq (p l (elt rs lo)) = true) :
    seek (RHS.Unsorted rs) p l (lo, hi) = some (elt rs lo, lo + 1) := by
  obtain ⟨k, hk⟩ : ∃ k, hi - lo = k + 1 := ⟨hi - lo - 1, by omega⟩
  simp only [seek, hk, scanGo, if_pos hlo, ht, if_pos]

/-- Unsorted seek: a window whose first index does not test Equal behaves as
the window starting one later. -/
theorem seek_unsorted_skip {rs : List R} {p : L → R → Ordering} {l : L}
    {lo hi : Nat} (ht : orderingIsEq (p l (elt rs lo)) = false) :
    seek (RHS.Unsorted rs) p l (lo, hi) = seek (RHS.Unsorted rs) p l (lo + 1, hi) := by
  rcases Nat.lt_or_ge lo hi with hlo | hlo
  · obtain ⟨k, hk⟩ : ∃ k, hi - lo = k + 1 := ⟨hi - lo - 1, by omega⟩
    have hk' : hi - (lo + 1) = k := by omega
    simp only [seek, hk, hk', scanGo, if_pos hlo, ht]
    rw [if_neg (by simp)]
  · rw [seek_none_of_ge hlo, seek_none_of_ge (by omega)]

/-- The drain result does not depend on the gas, once sufficient. -/
theorem drainGo_gas {rhs : RHS R} {p : L → R → Ordering} {l : L} {hi : Nat} :
    ∀ g g' lo, hi - lo ≤ g → hi - lo ≤ g' →
      drainGo rhs p l hi g lo = drainGo rhs p l hi g' lo := by
  intro g
  induction g with
  | zero =>
    intro g' lo h1 h2
    cases g' with
    | zero => rfl
    | succ g' =>
      simp only [drainGo]
      rw [seek_none_of_ge (by omega)]
  | succ g ih =>
    intro g' lo h1 h2
    cases g' with
    | zero =>
      simp only [drainGo]
      rw [seek_none_of_ge (by omega)]
    | succ g' =>
      rcases hs : seek rhs p l (lo, hi) with - | ⟨r, lo'⟩
      · simp only [drainGo, hs]
      · obtain ⟨hb1, hb2⟩ := seek_some_bounds hs
        simp only [drainGo, hs]
        rw [ih g' lo' (by omega) (by omega)]

/-- The defining unfolding equation of the drain: one seek step at a time. -/
theorem drainEach_unfold (rhs : RHS R) (p : L → R → Ordering) (l : L)
    (lo hi : Nat) :
    drainEach rhs p l (lo, hi) =
      (match seek rhs p l (lo, hi) with
       | some (r, lo') => (l, r) :: drainEach rhs p l (lo', hi)
       | none => []) := by
  rcases hs : seek rhs p l (lo, hi) with - | ⟨r, lo'⟩
  · rcases hk : hi - lo with - | k
    · simp only [drainEach, hk, drainGo]
    · simp only [drainEach, hk, drainGo, hs]
  · obtain ⟨hb1, hb2⟩ := seek_some_bounds hs
    obtain ⟨k, hk⟩ : ∃ k, hi - lo = k + 1 := ⟨hi - lo - 1, by omega⟩
    simp only [drainEach, hk, drainGo, hs]
    rw [drainGo_gas k (hi - lo') lo' (by omega) (by omega)]

/-- Sorted drain: the whole window is yielded, in index order. -/
theorem drainEach_sorted (rs : List R) (p : L → R → Ordering) (l : L) :
    ∀ k lo hi, hi - lo = k →
      drainEach (RHS.Sorted rs) p l (lo, hi) =
        (List.range' lo k).map fun i => (l, elt rs i) := by
  intro k
  induction k with
  | zero =>
    intro lo hi hk
    rw [drainEach_unfold, seek_none_of_ge (by omega)]
    rfl
  | succ k ih =>
    intro lo hi hk
    have hlo : lo < hi := by omega
    rw [drainEach_unfold]
    have hs : seek (RHS.Sorted rs) p l (lo, hi) = some (elt rs lo, lo + 1) := by
      simp only [seek, if_pos hlo]
      rfl
    rw [hs]
    show (l, elt rs lo) :: drainEach (RHS.Sorted rs) p l (lo + 1, hi) = _
    rw [ih (lo + 1) hi (by omega), List.range'_succ]
    rfl

/-- Unsorted drain: exactly the Equal positions of the window are yielded, in
index order. -/
theorem drainEach_unsorted (rs : List R) (p : L → R → Ordering) (l : L) :
    ∀ k lo hi, hi - lo = k →
      drainEach (RHS.Unsorted rs) p l (lo, hi) =
        ((List.range' lo k).filter fun i => orderingIsEq (p l (elt rs i))).map
          fun i => (l, elt rs i) := by
  intro k
  induction k with
  | zero =>
    intro lo hi hk
    rw [drainEach_unfold, seek_none_of_ge (by omega)]
    rfl
  | succ k ih =>
    intro lo hi hk
    have hlo : lo < hi := by omega
    rw [List.range'_succ]
    by_cases ht : orderingIsEq (p l (elt rs lo))
    · rw [drainEach_unfold, seek_unsorted_hit hlo ht]
      show (l, elt rs lo) :: drainEach (RHS.Unsorted rs) p l (lo + 1, hi) = _
      rw [ih (lo + 1) hi (by omega)]
      simp [List.filter_cons, ht]
    · have ht' : orderingIsEq (p l (elt rs lo)) = false := by
        rw [Bool.not_eq_true] at ht
        exact ht
      rw [drainEach_unfold, seek_unsorted_skip ht']
      rw [← drainEach_unfold, ih (lo + 1) hi (by omega)]
      simp [List.filter_cons, ht']

/-! ### The per-match runs are the iterations of the step functions -/

/-- Pair form of the drain unfolding equation. -/
theorem drainEach_unfold_pair (rhs : RHS R) (p : L → R → Ordering) (l : L)
    (range : Nat × Nat) :
    drainEach rhs p l range =
      (match seek rhs p l range with
       | some (r, lo') => (l, r) :: drainEach rhs p l (lo', range.2)
       | none => []) := by
  have h := drainEach_unfold rhs p l range.1 range.2
  rw [Prod.mk.eta] at h
  exact h

/-- The inner run agrees with one call of the pull path followed by the
run-from-state continuation. -/
theorem runEachInner_eq_pull (rhs : RHS R) (p : L → R → Ordering) :
    ∀ lhs : List L,
      runEachInner rhs p lhs =
        (match nextEachInnerPull rhs p lhs with
         | (none, _) => []
         | (some it, s') => it :: runFromInner rhs p s') := by
  intro lhs
  induction lhs with
  | nil => rfl
  | cons l rest ih =>
    rcases hs : seek rhs p l (get_range rhs l p) with - | ⟨r, lo⟩
    · simp only [runEachInner, nextEachInnerPull, hs]
      rw [drainEach_unfold_pair, hs, List.nil_append]
      exact ih
    · simp only [runEachInner, nextEachInnerPull, hs]
      rw [drainEach_unfold_pair, hs]
      simp only [runFromInner]
      rfl

/-- `runFromInner` satisfies the defining unfolding equation of iterating
`nextEachInner`: it is therefore the yield sequence of the Rust iterator. -/
theorem runFromInner_unfold (rhs : RHS R) (p : L → R → Ordering)
    (s : EachState L R) :
    runFromInner rhs p s =
      (match nextEachInner rhs p s with
       | (none, _) => []
       | (some it, s') => it :: runFromInner rhs p s') := by
  rcases s with ⟨lhs, cur, range⟩
  cases cur with
  | none =>
    simp only [runFromInner, nextEachInner]
    exact runEachInner_eq_pull rhs p lhs
  | some l =>
    rcases hs : seek rhs p l range with - | ⟨r, lo⟩
    · simp only [runFromInner, nextEachInner, hs]
      rw [drainEach_unfold_pair, hs, List.nil_append]
      exact runEachInner_eq_pull rhs p lhs
    · simp only [runFromInner, nextEachInner, hs]
      rw [drainEach_unfold_pair, hs]
      rfl

/-- The outer run agrees with one call of the pull path followed by the
run-from-state continuation. -/
theorem runEachOuter_eq_pull (rhs : RHS R) (p : L → R → Ordering) :
    ∀ lhs : List L,
      runEachOuter rhs p lhs =
        (match nextEachOuterPull rhs p lhs with
         | (none, _) => []
         | (some it, s') => it :: runFromOuter rhs p s') := by
  intro lhs
  cases lhs with
  | nil => rfl
  | cons l rest =>
    rcases hs : seek rhs p l (get_range rhs l p) with - | ⟨r, lo⟩
    · simp only [runEachOuter, nextEachOuterPull, hs]
      rw [drainEach_unfold_pair, hs]
      simp only [runFromOuter]
      rw [drainEach_unfold_pair, hs]
      simp [List.isEmpty_nil]
    · simp only [runEachOuter, nextEachOuterPull, hs]
      rw [drainEach_unfold_pair, hs]
      simp only [runFromOuter]
      simp

/-- `runFromOuter` satisfies the defining unfolding equation of iterating
`nextEachOuter`: it is therefore the yield sequence of the Rust iterator.
In particular the quirky no-clear path (yielding `(l, none)` while keeping
`current_left` installed) re-scans the same window on the following call,
finds nothing again, and only then moves on: the yield sequence is unchanged. -/
theorem runFromOuter_unfold (rhs : RHS R) (p : L → R → Ordering)
    (s : EachState L R) :
    runFromOuter rhs p s =
      (match nextEachOuter rhs p s with
       | (none, _) => []
       | (some it, s') => it :: runFromOuter rhs p s') := by
  rcases s with ⟨lhs, cur, range⟩
  cases cur with
  | none =>
    simp only [runFromOuter, nextEachOuter]
    exact runEachOuter_eq_pull rhs p lhs
  | some l =>
    rcases hs : seek rhs p l range with - | ⟨r, lo⟩
    · simp only [runFromOuter, nextEachOuter, hs]
      rw [drainEach_unfold_pair, hs]
      simp only [List.map_nil, List.nil_append]
      exact runEachOuter_eq_pull rhs p lhs
    · simp only [runFromOuter, nextEachOuter, hs]
      rw [drainEach_unfold_pair, hs]
      rfl

/-! ### Closed forms of the per-match runs -/

/-- A single-record inner join is exactly the drain of that record. -/
theorem inner_join_singleton (l : L) (rhs : RHS R) (p : L → R → Ordering) :
    inner_join [l] rhs p = drainEach rhs p l (get_range rhs l p) := by
  simp only [inner_join, runEachInner, List.append_nil]

/-- The inner run decomposes LHS-record by LHS-record. -/
theorem runEachInner_flatMap (rhs : RHS R) (p : L → R → Ordering) :
    ∀ lhs : List L,
      runEachInner rhs p lhs =
        lhs.flatMap fun l => drainEach rhs p l (get_range rhs l p) := by
  intro lhs
  induction lhs with
  | nil => rfl
  | cons l rest ih => simp only [runEachInner, List.flatMap_cons, ih]

/-- The outer run decomposes LHS-record by LHS-record, with the `(l, none)`
fallback for records whose drain is empty. -/
theorem runEachOuter_flatMap (rhs : RHS R) (p : L → R → Ordering) :
    ∀ lhs : List L,
      runEachOuter rhs p lhs =
        lhs.flatMap fun l =>
          let ms := drainEach rhs p l (get_range rhs l p)
          if ms.isEmpty then [(l, none)] else ms.map fun x => (x.1, some x.2) := by
  intro lhs
  induction lhs with
  | nil => rfl
  | cons l rest ih => simp only [runEachOuter, List.flatMap_cons, ih]

/-- The drain of a record's `get_range` window yields exactly the records at
`emitIdxs`, in that order. -/
theorem drainEach_window (rhs : RHS R) (p : L → R → Ordering) (l : L) :
    drainEach rhs p l (get_range rhs l p) =
      (emitIdxs rhs p l).map fun i => (l, elt rhs.toList i) := by
  cases rhs with
  | Unsorted rs =>
    rw [get_range_unsorted]
    have h := drainEach_unsorted rs p l rs.length 0 rs.length (by omega)
    rw [h]
    rfl
  | Sorted rs =>
    rcases hgr : get_range (RHS.Sorted rs) l p with ⟨a, b⟩
    rw [drainEach_sorted rs p l (b - a) a b rfl]
    simp [emitIdxs, hgr, RHS.toList]

/-- The emitted indices are strictly increasing. -/
theorem emitIdxs_pairwise (rhs : RHS R) (p : L → R → Ordering) (l : L) :
    List.Pairwise (· < ·) (emitIdxs rhs p l) := by
  cases rhs with
  | Unsorted rs => exact (List.pairwise_lt_range' 0 rs.length).filter _
  | Sorted rs => exact List.pairwise_lt_range' ..

/-- The emitted indices are in bounds. -/
theorem emitIdxs_lt_length (rhs : RHS R) (p : L → R → Ordering) (l : L) :
    ∀ i ∈ emitIdxs rhs p l, i < rhs.toList.length := by
  intro i hi
  cases rhs with
  | Unsorted rs =>
    simp only [emitIdxs] at hi
    have := (List.mem_filter.mp hi).1
    rw [List.mem_range'_1] at this
    simpa [RHS.toList] using this.2
  | Sorted rs =>
    simp only [emitIdxs] at hi
    rw [List.mem_range'_1] at hi
    rcases hgr : get_range (RHS.Sorted rs) l p with ⟨a, b⟩
    rw [hgr] at hi
    have hib : i < b := by omega
    have := get_range_sorted_eqrun hgr i (by omega) hib
    simpa [RHS.toList] using this.2

/-! ### Termination and no-match behaviour of the step functions -/

/-- When the inner pull reports exhaustion, the state is the sentinel. -/
theorem nextEachInnerPull_none (rhs : RHS R) (p : L → R → Ordering) :
    ∀ (lhs : List L) s', nextEachInnerPull rhs p lhs = (none, s') →
      s' = ⟨[], none, (1, 0)⟩ := by
  intro lhs
  induction lhs with
  | nil =>
    intro s' h
    simp only [nextEachInnerPull] at h
    cases h
    rfl
  | cons l rest ih =>
    intro s' h
    simp only [nextEachInnerPull] at h
    rcases hs : seek rhs p l (get_range rhs l p) with - | ⟨r, lo⟩
    · rw [hs] at h
      exact ih s' h
    · rw [hs] at h
      cases h

/-- When the outer pull reports exhaustion, the state is the sentinel. -/
theorem nextEachOuterPull_none (rhs : RHS R) (p : L → R → Ordering) :
    ∀ (lhs : List L) s', nextEachOuterPull rhs p lhs = (none, s') →
      s' = ⟨[], none, (1, 0)⟩ := by
  intro lhs
  cases lhs with
  | nil =>
    intro s' h
    simp only [nextEachOuterPull] at h
    cases h
    rfl
  | cons l rest =>
    intro s' h
    simp only [nextEachOuterPull] at h
    rcases hs : seek rhs p l (get_range rhs l p) with - | ⟨r, lo⟩
    · rw [hs] at h
      cases h
    · rw [hs] at h
      cases h

/-! ### Assembly helpers -/

/-- Filtering the index range `[0, n)` by a test that is true exactly on
`[s, e)` yields `[s, e)`. -/
theorem range_filter_zone {s e n : Nat} (q : Nat → Bool) (hse : s ≤ e)
    (hen : e ≤ n) (hq : ∀ i, i < n → (q i = true ↔ (s ≤ i ∧ i < e))) :
    (List.range' 0 n).filter q = List.range' s (e - s) := by
  have hsplit1 : List.range' 0 e ++ List.range' e (n - e) = List.range' 0 n := by
    have := List.range'_append 0 e (n - e) 1
    simpa [Nat.add_comm, Nat.add_sub_cancel' hen] using this
  have hsplit2 : List.range' 0 s ++ List.range' s (e - s) = List.range' 0 e := by
    have := List.range'_append 0 s (e - s) 1
    simpa [Nat.add_comm, Nat.add_sub_cancel' hse] using this
  rw [← hsplit1, ← hsplit2, List.filter_append, List.filter_append]
  have hlow : (List.range' 0 s).filter q = [] := by
    rw [List.filter_eq_nil_iff]
    intro i hi
    rw [List.mem_range'_1] at hi
    intro hc
    have := (hq i (by omega)).mp hc
    omega
  have hmid : (List.range' s (e - s)).filter q = List.range' s (e - s) := by
    rw [List.filter_eq_self]
    intro i hi
    rw [List.mem_range'_1] at hi
    exact (hq i (by omega)).mpr (by omega)
  have hhigh : (List.range' e (n - e)).filter q = [] := by
    rw [List.filter_eq_nil_iff]
    intro i hi
    rw [List.mem_range'_1] at hi
    intro hc
    have := (hq i (by omega)).mp hc
    omega
  rw [hlow, hmid, hhigh]
  simp

/-- Congruence for `flatMap` under pointwise equality on members. -/
theorem flatMap_congr_mem {α β : Type} (lhs : List α) {f g : α → List β}
    (h : ∀ l ∈ lhs, f l = g l) : lhs.flatMap f = lhs.flatMap g := by
  induction lhs with
  | nil => rfl
  | cons l rest ih =>
    simp only [List.flatMap_cons]
    rw [h l (List.mem_cons_self l rest), ih fun x hx => h x (List.mem_cons_of_mem l hx)]

/-- Every emitted index of the per-match iterators carries an Equal record. -/
theorem emitIdxs_eq_at (rhs : RHS R) (p : L → R → Ordering) (l : L) :
    ∀ i ∈ emitIdxs rhs p l, p l (elt rhs.toList i) = .eq := by
  intro i hi
  cases rhs with
  | Unsorted rs =>
    simp only [emitIdxs] at hi
    exact orderingIsEq_iff.mp (List.mem_filter.mp hi).2
  | Sorted rs =>
    simp only [emitIdxs] at hi
    rw [List.mem_range'_1] at hi
    rcases hgr : get_range (RHS.Sorted rs) l p with ⟨a, b⟩
    rw [hgr] at hi
    exact (get_range_sorted_eqrun hgr i (by omega) (by omega)).1

/-- Under the section-3 convention for `l`, the Sorted and Unsorted emitted
index sequences coincide. -/
theorem emitIdxs_zone {rs : List R} {l : L} {p : L → R → Ordering}
    (H : ConsistentGt p l rs) :
    emitIdxs (RHS.Sorted rs) p l = emitIdxs (RHS.Unsorted rs) p l := by
  obtain ⟨s, e, Hz⟩ := H
  have hfilter : (List.range' 0 rs.length).filter
      (fun i => orderingIsEq (p l (elt rs i))) = List.range' s (e - s) := by
    obtain ⟨hse, hen, Hg, He, Hl⟩ := Hz
    refine range_filter_zone _ hse hen ?_
    intro i hi
    constructor
    · intro hq
      by_contra hc
      rw [Decidable.not_and_iff_or_not] at hc
      rcases hc with hc | hc
      · have := Hg i (by omega)
        rw [orderingIsEq_iff.mp hq] at this
        cases this
      · have := Hl i (by omega) hi
        rw [orderingIsEq_iff.mp hq] at this
        cases this
    · rintro ⟨h1, h2⟩
      exact orderingIsEq_iff.mpr (He i h1 h2)
  have hgr := get_range_sorted_zone Hz
  simp only [emitIdxs, hgr, hfilter]
  by_cases hlt : s < e
  · rw [if_pos hlt]
  · rw [if_neg hlt]
    have h1 : e - s = 0 := by omega
    simp [h1]

/-- Under the reversed convention for `l`, the Sorted and Unsorted `has_value`
answers coincide. -/
theorem has_value_zone_agree {rs : List R} {l : L} {p : L → R → Ordering}
    (H : ConsistentLt p l rs) :
    has_value (RHS.Sorted rs) l p = has_value (RHS.Unsorted rs) l p := by
  obtain ⟨s, e, Hz⟩ := H
  rw [Bool.eq_iff_iff, has_value_sorted_zone Hz, has_value_unsorted_iff]

/-- The Outer grouped run yields exactly one element per LHS record. -/
theorem outer_grouped_fst (lhs : List L) (rhs : RHS R) (p : L → R → Ordering) :
    (runGrouped rhs p .Outer lhs).map Prod.fst = lhs := by
  rw [runGrouped_outer_eq, List.map_map]
  exact List.map_id lhs

/-- A concrete slice obeying the section-3 convention for the LHS value 1:
a Greater run `[0, 1)`, the Equal run `[1, 2)` and a Less run `[2, 4)`. -/
theorem sortedForGt_example : SortedForGt compare (1 : Nat) [0, 1, 2, 3] 1 2 := by
  refine ⟨by omega, by decide, ?_, ?_, ?_⟩
  · intro i h1
    interval_cases i
    · decide
  · intro i h1 h2
    interval_cases i
    · decide
  · intro i h1 h2
    have : List.length [0, 1, 2, 3] = 4 := by decide
    rw [this] at h2
    interval_cases i <;> decide

/-! ### Claims C1, C2, C3 -/

/-- C1, counterexample: the claim asserts that for any B sorted consistently
with P in the section-3 sense (Greater run, Equal run, Less run), wrapping B
as Sorted versus Unsorted yields identical output for EVERY operator. This is
false for `semi_join`: on B = [0,1,2,3] and L = [1] with the natural compare
(which satisfies the section-3 convention, first conjunct), the Sorted
bisection of `has_value` probes with the non-reversed comparator, misses the
Equal record, and semi_join drops the record that the Unsorted scan keeps. -/
theorem claim_C1_counterexample :
    SortedForGt compare (1 : Nat) [0, 1, 2, 3] 1 2 ∧
    semi_join [1] (RHS.Sorted [0, 1, 2, 3]) compare ≠
      semi_join [1] (RHS.Unsorted [0, 1, 2, 3]) compare :=
  ⟨sortedForGt_example, by decide⟩

/-- C1, amended: Sorted and Unsorted wrappings agree on the per-match
operators (`inner_join`, `outer_join`) whenever every joined LHS value obeys
the section-3 convention (Greater run, Equal run, Less run), and agree on the
grouped and left-only operators (`inner_join_grouped`, `outer_join_grouped`,
`semi_join`, `anti_join`) whenever every joined LHS value obeys the REVERSED
convention (Less run, Equal run, Greater run). The two operator families
bisect with opposite comparator orientations, so neither convention makes all
six operators agree at once. -/
theorem claim_C1_amended (lhs : List L) (rs : List R) (p : L → R → Ordering) :
    ((∀ l ∈ lhs, ConsistentGt p l rs) →
      inner_join lhs (RHS.Sorted rs) p = inner_join lhs (RHS.Unsorted rs) p ∧
      outer_join lhs (RHS.Sorted rs) p = outer_join lhs (RHS.Unsorted rs) p) ∧
    ((∀ l ∈ lhs, ConsistentLt p l rs) →
      inner_join_grouped lhs (RHS.Sorted rs) p =
        inner_join_grouped lhs (RHS.Unsorted rs) p ∧
      outer_join_grouped lhs (RHS.Sorted rs) p =
        outer_join_grouped lhs (RHS.Unsorted rs) p ∧
      semi_join lhs (RHS.Sorted rs) p = semi_join lhs (RHS.Unsorted rs) p ∧
      anti_join lhs (RHS.Sorted rs) p = anti_join lhs (RHS.Unsorted rs) p) := by
  constructor
  · intro H
    have hdrain : ∀ l ∈ lhs,
        drainEach (RHS.Sorted rs) p l (get_range (RHS.Sorted rs) l p) =
          drainEach (RHS.Unsorted rs) p l (get_range (RHS.Unsorted rs) l p) := by
      intro l hl
      rw [drainEach_window, drainEach_window, emitIdxs_zone (H l hl)]
      rfl
    constructor
    · simp only [inner_join]
      rw [runEachInner_flatMap, runEachInner_flatMap]
      exact flatMap_congr_mem lhs hdrain
    · simp only [outer_join]
      rw [runEachOuter_flatMap, runEachOuter_flatMap]
      refine flatMap_congr_mem lhs ?_
      intro l hl
      simp only [hdrain l hl]
  · intro H
    have hgather : ∀ l ∈ lhs,
        gatherGrouped (RHS.Sorted rs) l p = gatherGrouped (RHS.Unsorted rs) l p := by
      intro l hl
      obtain ⟨s, e, Hz⟩ := H l hl
      rw [gather_sorted_zone Hz]
      show _ = rs.filter _
      rw [filter_zone_of_lt Hz]
    have hmap : (lhs.map fun l => (l, gatherGrouped (RHS.Sorted rs) l p)) =
        lhs.map fun l => (l, gatherGrouped (RHS.Unsorted rs) l p) :=
      List.map_congr_left fun l hl => by rw [hgather l hl]
    have hhv : ∀ l ∈ lhs,
        has_value (RHS.Sorted rs) l p = has_value (RHS.Unsorted rs) l p := by
      intro l hl
      exact has_value_zone_agree (H l hl)
    refine ⟨?_, ?_, ?_, ?_⟩
    · simp only [inner_join_grouped]
      rw [runGrouped_inner_eq, runGrouped_inner_eq, hmap]
    · simp only [outer_join_grouped]
      rw [runGrouped_outer_eq, runGrouped_outer_eq, hmap]
    · simp only [semi_join]
      rw [runLeft_semi_eq, runLeft_semi_eq]
      exact List.filter_congr fun l hl => hhv l hl
    · simp only [anti_join]
      rw [runLeft_anti_eq, runLeft_anti_eq]
      exact List.filter_congr fun l hl => by rw [hhv l hl]

/-- C1, witness: on B = [1, 1] the LHS values 1 and 2 satisfy both
conventions at once, so all six operators agree between wrappings there. -/
theorem claim_C1_witness :
    inner_join [1, 2] (RHS.Sorted [1, 1]) compare =
      inner_join [1, 2] (RHS.Unsorted [1, 1]) compare ∧
    outer_join [1, 2] (RHS.Sorted [1, 1]) compare =
      outer_join [1, 2] (RHS.Unsorted [1, 1]) compare ∧
    semi_join [1, 2] (RHS.Sorted [1, 1]) compare =
      semi_join [1, 2] (RHS.Unsorted [1, 1]) compare ∧
    anti_join [1, 2] (RHS.Sorted [1, 1]) compare =
      anti_join [1, 2] (RHS.Unsorted [1, 1]) compare := by
  have h := claim_C1_amended [1, 2] [1, 1] compare
  have hlen : List.length [1, 1] = 2 := by decide
  have hGt : ∀ l ∈ [1, 2], ConsistentGt compare l [1, 1] := by
    intro l hl
    have hor : l = 1 ∨ l = 2 := by simpa using hl
    rcases hor with h1 | h2
    · subst h1
      exact ⟨0, 2, by omega, by decide, fun i hi => by omega,
        fun i h1 h2 => by interval_cases i <;> decide,
        fun i h1 h2 => by rw [hlen] at h2; omega⟩
    · subst h2
      exact ⟨2, 2, by omega, by decide,
        fun i hi => by interval_cases i <;> decide,
        fun i h1 h2 => by omega,
        fun i h1 h2 => by rw [hlen] at h2; omega⟩
  have hLt : ∀ l ∈ [1, 2], ConsistentLt compare l [1, 1] := by
    intro l hl
    have hor : l = 1 ∨ l = 2 := by simpa using hl
    rcases hor with h1 | h2
    · subst h1
      exact ⟨0, 2, by omega, by decide, fun i hi => by omega,
        fun i h1 h2 => by interval_cases i <;> decide,
        fun i h1 h2 => by rw [hlen] at h2; omega⟩
    · subst h2
      exact ⟨0, 0, by omega, by decide, fun i hi => by omega,
        fun i h1 h2 => by omega,
        fun i h1 h2 => by rw [hlen] at h2; interval_cases i <;> decide⟩
  obtain ⟨h1, h2⟩ := h.1 hGt
  obtain ⟨-, -, h3, h4⟩ := h.2 hLt
  exact ⟨h1, h2, h3, h4⟩

/-- C2, counterexample: the claim asserts that under the section-3 convention
(Greater run, Equal run, Less run) the Sorted `has_value` returns true iff a
match exists. On B = [0,1,2,3] and l = 1 the convention holds (first
conjunct) and a match exists (second conjunct), yet `has_value` returns
false: its bisection does not reverse the comparator, so under this
convention it navigates away from the Equal run. -/
theorem claim_C2_counterexample :
    SortedForGt compare (1 : Nat) [0, 1, 2, 3] 1 2 ∧
    (∃ r ∈ ([0, 1, 2, 3] : List Nat), compare 1 r = .eq) ∧
    has_value (RHS.Sorted [0, 1, 2, 3]) (1 : Nat) compare = false :=
  ⟨sortedForGt_example, ⟨1, by decide, by decide⟩, by decide⟩

/-- C2, amended: the Unsorted `has_value` decides existence of a match with
no precondition; the Sorted `has_value` decides it under the REVERSED
convention (Less run, Equal run, Greater run) — not under the section-3
convention stated in the claim. -/
theorem claim_C2_amended (rs : List R) (l : L) (p : L → R → Ordering) :
    (has_value (RHS.Unsorted rs) l p = true ↔ ∃ r ∈ rs, p l r = .eq) ∧
    (∀ s e, SortedForLt p l rs s e →
      (has_value (RHS.Sorted rs) l p = true ↔ ∃ r ∈ rs, p l r = .eq)) :=
  ⟨has_value_unsorted_iff, fun _ _ H => has_value_sorted_zone H⟩

/-- C2, witness: on the descending slice [2, 1, 0] the value 1 obeys the
reversed convention and the Sorted `has_value` correctly reports a match. -/
theorem claim_C2_witness :
    has_value (RHS.Sorted [2, 1, 0]) (1 : Nat) compare = true ↔
      ∃ r ∈ ([2, 1, 0] : List Nat), compare 1 r = .eq := by
  have hlen : List.length [2, 1, 0] = 3 := by decide
  refine (claim_C2_amended [2, 1, 0] 1 compare).2 1 2
    ⟨by omega, by decide, ?_, ?_, ?_⟩
  · intro i h1
    interval_cases i
    · decide
  · intro i h1 h2
    interval_cases i
    · decide
  · intro i h1 h2
    rw [hlen] at h2
    interval_cases i
    · decide

/-- C3, counterexample: the claim asserts for EITHER wrapping that each
element emitted by `outer_join_grouped` carries exactly the Equal records of
B in index order. With the Sorted wrapping on B = [0,1,2,3] (which satisfies
even the section-3 convention, first conjunct) the LHS record 1 is emitted
with an empty matches collection, although B contains the Equal record 1
(third conjunct): the grouped gather bisects without reversing the
comparator and misses the run. -/
theorem claim_C3_counterexample :
    SortedForGt compare (1 : Nat) [0, 1, 2, 3] 1 2 ∧
    outer_join_grouped [1] (RHS.Sorted [0, 1, 2, 3]) compare = [(1, [])] ∧
    List.filter (fun r => orderingIsEq (compare 1 r)) [0, 1, 2, 3] = [1] :=
  ⟨sortedForGt_example, by decide, by decide⟩

/-- C3, amended: `outer_join_grouped` emits exactly one element per LHS
record (third conjunct, both wrappings, unconditionally); the matches
collection equals the ordered sequence of Equal records of B with the
Unsorted wrapping unconditionally (first conjunct), and with the Sorted
wrapping under the REVERSED convention (second conjunct). -/
theorem claim_C3_amended (lhs : List L) (rs : List R) (p : L → R → Ordering) :
    (outer_join_grouped lhs (RHS.Unsorted rs) p =
      lhs.map fun l => (l, rs.filter fun r => orderingIsEq (p l r))) ∧
    ((∀ l ∈ lhs, ConsistentLt p l rs) →
      outer_join_grouped lhs (RHS.Sorted rs) p =
        lhs.map fun l => (l, rs.filter fun r => orderingIsEq (p l r))) ∧
    (∀ rhs : RHS R, (outer_join_grouped lhs rhs p).map Prod.fst = lhs) := by
  refine ⟨?_, ?_, ?_⟩
  · simp only [outer_join_grouped]
    rw [runGrouped_outer_eq]
    rfl
  · intro H
    simp only [outer_join_grouped]
    rw [runGrouped_outer_eq]
    refine List.map_congr_left ?_
    intro l hl
    obtain ⟨s, e, Hz⟩ := H l hl
    rw [gather_sorted_zone Hz, filter_zone_of_lt Hz]
  · intro rhs
    exact outer_grouped_fst lhs rhs p

/-- C3, witness: concrete instance of the amended Sorted case and of the
one-element-per-record conjunct. -/
theorem claim_C3_witness :
    outer_join_grouped [1] (RHS.Sorted [1, 1]) compare =
      [1].map (fun l => (l, [1, 1].filter fun r => orderingIsEq (compare l r))) ∧
    (outer_join_grouped [1] (RHS.Sorted [1, 1]) compare).map Prod.fst = [1] := by
  have h := claim_C3_amended [1] [1, 1] compare
  have hlen : List.length [1, 1] = 2 := by decide
  refine ⟨h.2.1 ?_, h.2.2 (RHS.Sorted [1, 1])⟩
  intro l hl
  have hl1 : l = 1 := by simpa using hl
  subst hl1
  exact ⟨0, 2, by omega, by decide, fun i hi => by omega,
    fun i h1 h2 => by interval_cases i <;> decide,
    fun i h1 h2 => by rw [hlen] at h2; omega⟩

/-! ### Claims C4, C5, C6 -/

/-- C4, confirmed: for every LHS sequence, RHS wrapper and predicate, the
outer per-match join equals the inner per-match join with, for each LHS
record whose inner matches are empty, exactly one `(l, none)` element at that
record's position in LHS order (first conjunct); the second conjunct states
the record-by-record decomposition of the inner join that makes "at that
record's position" precise. No sortedness assumption is needed: both
iterators share `get_range` and the seek loop. -/
theorem claim_C4_outer_inner (lhs : List L) (rhs : RHS R) (p : L → R → Ordering) :
    outer_join lhs rhs p =
      (lhs.flatMap fun l =>
        if (inner_join [l] rhs p).isEmpty then [(l, none)]
        else (inner_join [l] rhs p).map fun x => (x.1, some x.2)) ∧
    inner_join lhs rhs p = lhs.flatMap fun l => inner_join [l] rhs p := by
  constructor
  · simp only [outer_join]
    rw [runEachOuter_flatMap]
    refine flatMap_congr_mem lhs ?_
    intro l hl
    rw [inner_join_singleton]
  · simp only [inner_join]
    rw [runEachInner_flatMap]
    refine flatMap_congr_mem lhs ?_
    intro l hl
    exact (inner_join_singleton l rhs p).symm

/-- C5, confirmed: semi and anti join partition the LHS sequence: their
concatenation is a permutation of A (multiset equality), and no record
emitted by one is emitted by the other. This holds for every wrapper and
predicate because both operators filter A by the same boolean `has_value`. -/
theorem claim_C5_semi_anti (lhs : List L) (rhs : RHS R) (p : L → R → Ordering) :
    (semi_join lhs rhs p ++ anti_join lhs rhs p).Perm lhs ∧
    ∀ x ∈ semi_join lhs rhs p, x ∉ anti_join lhs rhs p := by
  constructor
  · simp only [semi_join, anti_join]
    rw [runLeft_semi_eq, runLeft_anti_eq]
    exact List.filter_append_perm _ lhs
  · intro x hx hx2
    simp only [semi_join] at hx
    simp only [anti_join] at hx2
    rw [runLeft_semi_eq] at hx
    rw [runLeft_anti_eq] at hx2
    have h1 := (List.mem_filter.mp hx).2
    have h2 := (List.mem_filter.mp hx2).2
    rw [h1] at h2
    cases h2

/-- C5, witness: a concrete partition instance. -/
theorem claim_C5_witness :
    (semi_join [1, 5] (RHS.Unsorted [1]) compare ++
      anti_join [1, 5] (RHS.Unsorted [1]) compare).Perm [1, 5] ∧
    (1 : Nat) ∉ anti_join [1, 5] (RHS.Unsorted [1]) compare := by
  have h := claim_C5_semi_anti [1, 5] (RHS.Unsorted [1]) compare
  exact ⟨h.1, h.2 1 (by decide)⟩

/-- C6, confirmed: for an Unsorted RHS, `get_range` returns `(0, len)`; for a
Sorted RHS consistent with the section-3 convention it returns the full
contiguous equal run `(s, e)` when one exists and the sentinel `(1, 0)`
otherwise; the final conjunct states that the returned window contains
exactly the Equal positions. -/
theorem claim_C6_get_range (rs : List R) (l : L) (p : L → R → Ordering)
    (s e : Nat) (H : SortedForGt p l rs s e) :
    get_range (RHS.Unsorted rs) l p = (0, rs.length) ∧
    get_range (RHS.Sorted rs) l p = (if s < e then (s, e) else (1, 0)) ∧
    ∀ i, i < rs.length →
      (p l (elt rs i) = .eq ↔
        ((get_range (RHS.Sorted rs) l p).1 ≤ i ∧
          i < (get_range (RHS.Sorted rs) l p).2)) := by
  have hz := get_range_sorted_zone H
  obtain ⟨hse, hen, Hg, He, Hl⟩ := H
  refine ⟨rfl, hz, ?_⟩
  intro i hi
  rw [hz]
  by_cases hlt : s < e
  · rw [if_pos hlt]
    constructor
    · intro heq
      constructor
      · by_contra hc
        push_neg at hc
        have := Hg i hc
        rw [heq] at this
        cases this
      · by_contra hc
        push_neg at hc
        have := Hl i hc hi
        rw [heq] at this
        cases this
    · rintro ⟨h1, h2⟩
      exact He i h1 h2
  · rw [if_neg hlt]
    constructor
    · intro heq
      exfalso
      rcases Nat.lt_or_ge i s with hc | hc
      · have := Hg i hc
        rw [heq] at this
        cases this
      · have := Hl i (by omega) hi
        rw [heq] at this
        cases this
    · rintro ⟨h1, h2⟩
      exact absurd h2 (by omega)

/-- C6, witness: on the consistently sorted slice [0, 1, 1, 2] and l = 1,
`get_range` returns the full equal run (1, 3); the Unsorted window is the
whole slice. -/
theorem claim_C6_witness :
    get_range (RHS.Unsorted [0, 1, 1, 2]) (1 : Nat) compare = (0, 4) ∧
    get_range (RHS.Sorted [0, 1, 1, 2]) (1 : Nat) compare = (1, 3) := by
  have hlen : List.length [0, 1, 1, 2] = 4 := by decide
  have h := claim_C6_get_range [0, 1, 1, 2] (1 : Nat) compare 1 3
    ⟨by omega, by decide, ?_, ?_, ?_⟩
  · refine ⟨?_, ?_⟩
    · rw [h.1, hlen]
    · rw [h.2.1]
      decide
  · intro i h1
    interval_cases i
    · decide
  · intro i h1 h2
    interval_cases i <;> decide
  · intro i h1 h2
    rw [hlen] at h2
    interval_cases i
    · decide

/-! ### Claims C7, C8 -/

/-- C7, confirmed: both per-match joins decompose record-by-record in LHS
order (so all of one record's matches are consecutive, before the next LHS
record), the RHS indices yielded for one record are strictly increasing (so
matches come in RHS index order, equal to their order in B), and they are in
bounds. This holds for either wrapping and any predicate. -/
theorem claim_C7_ordering (lhs : List L) (rhs : RHS R) (p : L → R → Ordering) :
    inner_join lhs rhs p =
      (lhs.flatMap fun l => (emitIdxs rhs p l).map fun i => (l, elt rhs.toList i)) ∧
    outer_join lhs rhs p =
      (lhs.flatMap fun l =>
        if (emitIdxs rhs p l).isEmpty then [(l, none)]
        else (emitIdxs rhs p l).map fun i => (l, some (elt rhs.toList i))) ∧
    (∀ l, List.Pairwise (· < ·) (emitIdxs rhs p l)) ∧
    (∀ l, ∀ i ∈ emitIdxs rhs p l, i < rhs.toList.length) := by
  refine ⟨?_, ?_, emitIdxs_pairwise rhs p, emitIdxs_lt_length rhs p⟩
  · simp only [inner_join]
    rw [runEachInner_flatMap]
    exact flatMap_congr_mem lhs fun l _ => drainEach_window rhs p l
  · simp only [outer_join]
    rw [runEachOuter_flatMap]
    refine flatMap_congr_mem lhs ?_
    intro l hl
    rw [drainEach_window]
    cases hemit : emitIdxs rhs p l with
    | nil => simp
    | cons i is => simp [List.map_map, Function.comp]

/-- C7, witness: the decomposition and the in-bounds fact at a concrete
instance (B = [1, 2, 1] unsorted, so the equal indices 0 and 2 are
non-contiguous yet emitted in increasing order). -/
theorem claim_C7_witness :
    inner_join [1] (RHS.Unsorted [1, 2, 1]) compare =
      ([1].flatMap fun l =>
        (emitIdxs (RHS.Unsorted [1, 2, 1]) compare l).map fun i =>
          (l, elt (RHS.Unsorted [1, 2, 1] : RHS Nat).toList i)) ∧
    List.Pairwise (· < ·) (emitIdxs (RHS.Unsorted [1, 2, 1]) compare (1 : Nat)) ∧
    (0 : Nat) < (RHS.Unsorted [1, 2, 1] : RHS Nat).toList.length := by
  have h := claim_C7_ordering [1] (RHS.Unsorted [1, 2, 1]) compare
  exact ⟨h.1, h.2.2.1 1, h.2.2.2 1 0 (by decide)⟩

/-- C8, confirmed: under inner semantics an LHS record contributes output
only if some RHS record matches it — for the per-match join every emitted
pair's LHS component has a matching record (first conjunct), and
`inner_join_grouped` emits no empty collection and only matched records
(second conjunct); under outer semantics every LHS record yields at least
one element — `outer_join_grouped` emits exactly one element per record
(third conjunct) and the per-match outer output contains the LHS sequence as
a sublist of its first components (fourth conjunct). -/
theorem claim_C8_emission (lhs : List L) (rhs : RHS R) (p : L → R → Ordering) :
    (∀ x ∈ inner_join lhs rhs p, ∃ r ∈ rhs.toList, p x.1 r = .eq) ∧
    (∀ x ∈ inner_join_grouped lhs rhs p,
      x.2 ≠ [] ∧ ∃ r ∈ rhs.toList, p x.1 r = .eq) ∧
    ((outer_join_grouped lhs rhs p).map Prod.fst = lhs) ∧
    lhs.Sublist ((outer_join lhs rhs p).map Prod.fst) := by
  refine ⟨?_, ?_, outer_grouped_fst lhs rhs p, ?_⟩
  · intro x hx
    simp only [inner_join] at hx
    rw [runEachInner_flatMap] at hx
    rw [List.mem_flatMap] at hx
    obtain ⟨l, hl, hxl⟩ := hx
    rw [drainEach_window] at hxl
    rw [List.mem_map] at hxl
    obtain ⟨i, hi, hxi⟩ := hxl
    subst hxi
    exact ⟨elt rhs.toList i, elt_mem (emitIdxs_lt_length rhs p l i hi),
      emitIdxs_eq_at rhs p l i hi⟩
  · intro x hx
    simp only [inner_join_grouped] at hx
    rw [runGrouped_inner_eq] at hx
    obtain ⟨hmap, hne⟩ := List.mem_filter.mp hx
    rw [List.mem_map] at hmap
    obtain ⟨l, hl, hxl⟩ := hmap
    subst hxl
    have hne' : gatherGrouped rhs l p ≠ [] := by
      intro hc
      rw [hc] at hne
      simp at hne
    obtain ⟨r, hr⟩ := List.exists_mem_of_ne_nil _ hne'
    have hg := gather_mem hr
    exact ⟨hne', r, hg.1, hg.2⟩
  · induction lhs with
    | nil => exact List.nil_sublist _
    | cons l rest ih =>
      have hsplit : outer_join (l :: rest) rhs p =
          (let ms := drainEach rhs p l (get_range rhs l p)
           if ms.isEmpty then [(l, none)] else ms.map fun x => (x.1, some x.2)) ++
            outer_join rest rhs p := rfl
      rw [hsplit, List.map_append]
      have hblock : ∃ t,
          ((let ms := drainEach rhs p l (get_range rhs l p)
            if ms.isEmpty then [(l, none)]
            else ms.map fun x => (x.1, some x.2)).map Prod.fst) = l :: t := by
        by_cases hms : (drainEach rhs p l (get_range rhs l p)).isEmpty
        · exact ⟨[], by simp [hms]⟩
        · rw [drainEach_window] at hms ⊢
          cases hemit : emitIdxs rhs p l with
          | nil =>
            rw [hemit] at hms
            simp at hms
          | cons i is =>
            refine ⟨is.map fun _ => l, ?_⟩
            simp only [List.map_cons, List.isEmpty_cons, Bool.false_eq_true,
              if_false, List.map_map]
            show _ = l :: is.map fun _ => l
            clear hemit
            induction is with
            | nil => rfl
            | cons j js ihj =>
              simp only [List.map_cons] at ihj ⊢
              rw [List.cons.injEq]
              exact ⟨rfl, by simpa using ihj⟩
      obtain ⟨t, ht⟩ := hblock
      rw [ht]
      show ([l] ++ rest).Sublist ((l :: t) ++ _)
      exact List.Sublist.append (List.cons_sublist_cons.mpr (List.nil_sublist t)) ih

/-- C8, witness: concrete instances — the first conjunct applied to the
emitted pair (1, 1), and the outer sublist fact. -/
theorem claim_C8_witness :
    (∃ r ∈ (RHS.Unsorted [1] : RHS Nat).toList, compare (1, 1).1 r = .eq) ∧
    [1, 5].Sublist ((outer_join [1, 5] (RHS.Unsorted [1]) compare).map Prod.fst) := by
  have h := claim_C8_emission [1, 5] (RHS.Unsorted [1]) compare
  exact ⟨h.1 (1, 1) (by decide), h.2.2.2⟩

/-! ### Claims C9, C10 -/

/-- C9, counterexample: the claim says that when a `next()` call pulls a
fresh LHS record, finds no match and yields `(l, none)`, it also clears
`current_left`. In the source the `is_first` branches return `Some((l, None))`
WITHOUT `self.current_left.take()`: after the call `current_left` is still
`Some(l)`. Concretely, from the initial state on LHS = [5], RHS = [1], the
call yields `(5, none)` and leaves `current_left = some 5`. -/
theorem claim_C9_counterexample :
    nextEachOuter (RHS.Unsorted [1]) compare ⟨[5], none, (1, 0)⟩ =
      (some ((5 : Nat), (none : Option Nat)), ⟨[], some 5, (0, 1)⟩) ∧
    (⟨[], some 5, (0, 1)⟩ : EachState Nat Nat).current_left ≠ none := by
  decide

/-- C9, amended: when a fresh pull (empty `current_left`, LHS yields `l`)
finds no match, the call yields `(l, none)` but LEAVES `current_left = some l`
and `rhs_range` untouched; the clearing happens on the following call, which
seeks the same window again, finds nothing (`is_first` now false), clears
`current_left` and proceeds to pull the next LHS record without yielding
anything further for `l`. -/
theorem claim_C9_amended (rhs : RHS R) (p : L → R → Ordering) (l : L)
    (rest : List L) (r0 : Nat × Nat)
    (h : seek rhs p l (get_range rhs l p) = none) :
    nextEachOuter rhs p ⟨l :: rest, none, r0⟩ =
      (some (l, none), ⟨rest, some l, get_range rhs l p⟩) ∧
    nextEachOuter rhs p ⟨rest, some l, get_range rhs l p⟩ =
      nextEachOuterPull rhs p rest := by
  constructor
  · simp only [nextEachOuter, nextEachOuterPull, h]
  · simp only [nextEachOuter, h]

/-- C9, witness: the amended behaviour at the counterexample's input. -/
theorem claim_C9_witness :
    nextEachOuter (RHS.Unsorted [1]) compare ⟨[5], none, (1, 0)⟩ =
      (some ((5 : Nat), (none : Option Nat)),
        ⟨[], some 5, get_range (RHS.Unsorted [1]) (5 : Nat) compare⟩) ∧
    nextEachOuter (RHS.Unsorted [1]) compare
        ⟨[], some 5, get_range (RHS.Unsorted [1]) (5 : Nat) compare⟩ =
      nextEachOuterPull (RHS.Unsorted [1]) compare [] :=
  claim_C9_amended (RHS.Unsorted [1]) compare 5 [] (1, 0) (by decide)

/-- C10, confirmed: for both per-match iterators (the LHS sequence is
modelled as a list, so the underlying iterator is fused as the claim
hypothesises), a `next()` call that returns `none` leaves the state with
`current_left = none` and `rhs_range = (1, 0)`, and that state is a fixed
point on which `next()` returns `none` again — hence, by iteration, every
subsequent call returns `none` with the same state. -/
theorem claim_C10_fused (rhs : RHS R) (p : L → R → Ordering)
    (s s' t t' : EachState L R) :
    (nextEachInner rhs p s = (none, s') →
      s'.current_left = none ∧ s'.rhs_range = (1, 0) ∧
        nextEachInner rhs p s' = (none, s')) ∧
    (nextEachOuter rhs p t = (none, t') →
      t'.current_left = none ∧ t'.rhs_range = (1, 0) ∧
        nextEachOuter rhs p t' = (none, t')) := by
  constructor
  · intro h
    have hs : s' = ⟨[], none, (1, 0)⟩ := by
      rcases s with ⟨lhs, cur, range⟩
      cases cur with
      | none => exact nextEachInnerPull_none rhs p lhs s' h
      | some l =>
        rcases hseek : seek rhs p l range with - | ⟨r, lo⟩
        · simp only [nextEachInner, hseek] at h
          exact nextEachInnerPull_none rhs p lhs s' h
        · simp only [nextEachInner, hseek] at h
          simp at h
    subst hs
    exact ⟨rfl, rfl, rfl⟩
  · intro h
    have ht : t' = ⟨[], none, (1, 0)⟩ := by
      rcases t with ⟨lhs, cur, range⟩
      cases cur with
      | none => exact nextEachOuterPull_none rhs p lhs t' h
      | some l =>
        rcases hseek : seek rhs p l range with - | ⟨r, lo⟩
        · simp only [nextEachOuter, hseek] at h
          exact nextEachOuterPull_none rhs p lhs t' h
        · simp only [nextEachOuter, hseek] at h
          simp at h
    subst ht
    exact ⟨rfl, rfl, rfl⟩

/-- C10, witness: the sentinel state is reached and is a fixed point at a
concrete input. -/
theorem claim_C10_witness :
    (⟨[], none, (1, 0)⟩ : EachState Nat Nat).current_left = none ∧
    (⟨[], none, (1, 0)⟩ : EachState Nat Nat).rhs_range = (1, 0) ∧
    nextEachInner (RHS.Unsorted [1]) compare ⟨[], none, (1, 0)⟩ =
      (none, ⟨[], none, (1, 0)⟩) :=
  (claim_C10_fused (RHS.Unsorted [1]) compare ⟨[], none, (1, 0)⟩
    ⟨[], none, (1, 0)⟩ ⟨[], none, (1, 0)⟩ ⟨[], none, (1, 0)⟩).1 (by decide)

end Joinable
